import Mathlib

/-!
Verification of core invariants of the nvc VHDL compiler/simulator against a
shallow embedding of its C sources (src/type.c, src/hash.c, src/util.c,
src/rt/vcd.c, src/vlog/vlog-simp.c and the jit layout code).

Pointers are modelled by structural values; the C pointer-equality shortcut
`a == b` is modelled by decidable structural equality (pointer equality in C
implies structural equality here, and no claim depends on aliasing).
Interned identifiers are modelled as natural-number handles, matching their
O(1) handle-equality semantics.  C functions that `assert` or `fatal_trace`
on an input are modelled by `Option` results or by a documented default on
the ill-formed branch.
-/

set_option linter.unusedVariables false
set_option linter.unreachableTactic false
set_option linter.unnecessarySeqFocus false
set_option linter.unusedTactic false

namespace NVC

/-- Interned identifier handle (spec C1): two identifiers are equal iff their
handles are equal.  Modelled as a natural number. -/
abbrev Ident := Nat

/-- The interned handle of the name "universal_integer" (see
`type_universal_int` in src/type.c). -/
def universal_integer_id : Ident := 1000

/-- The interned handle of the name "universal_real" (see
`type_universal_real` in src/type.c). -/
def universal_real_id : Ident := 1001

/-- Type kinds, in the declaration order of `type_kind_t` used by
src/type.c's `has_map`. -/
inductive TypeKind where
  | T_SUBTYPE
  | T_INTEGER
  | T_REAL
  | T_ENUM
  | T_PHYSICAL
  | T_CARRAY
  | T_UARRAY
  | T_RECORD
  | T_FILE
  | T_ACCESS
  | T_FUNC
  | T_INCOMPLETE
  | T_PROC
  | T_NONE
  | T_PROTECTED
  deriving DecidableEq

/-- A range (dimension) item.  `folded` is `some (low, high)` when
`folded_bounds` on the range succeeds with those static bounds, `none` when
the bounds are not statically known.  (`folded_bounds` lives in common.c,
which is not part of the given sources; modelled from the spec: a range
either has statically known integer bounds or it does not.) -/
structure VRange where
  folded : Option (Int × Int)
  deriving DecidableEq

mutual

/-- A type object: `kind` plus the item slots that appear in src/type.c's
`has_map` (I_IDENT, I_BASE, I_DIMS, I_ELEM, I_FIELDS, I_PTYPES, I_RESULT,
I_ACCESS, I_INDEXCON, I_CONSTR).  A slot that the kind does not have, or that
was never set, is `none`/empty.  `fields` holds the `tree_type` of each field
declaration.  `constr` is `some rs` when the subtype has a constraint with
ranges `rs`.  (I_RESOLUTION, I_LITERALS, I_UNITS, I_TEXT_BUF, I_DECLS, I_REF
and I_FILE play no part in the claims and are omitted.) -/
inductive VType where
  | mk (kind : TypeKind) (ident : Option Ident) (base : VTypeO) (dims : List VRange)
       (elem : VTypeO) (fields : VTypeL) (ptypes : VTypeL) (result : VTypeO)
       (acc : VTypeO) (indexcon : VTypeL) (constr : Option (List VRange))

/-- An optional reference to a type object (a possibly-NULL `type_t`). -/
inductive VTypeO where
  | none
  | some (t : VType)

/-- A `type_array_t` of type objects. -/
inductive VTypeL where
  | nil
  | cons (hd : VType) (tl : VTypeL)

end

deriving instance DecidableEq for VType, VTypeO, VTypeL

/-- Kind of a type object (`type_kind`). -/
def VType.kind : VType → TypeKind
  | .mk k _ _ _ _ _ _ _ _ _ _ => k

/-- The raw I_IDENT item of a type object. -/
def VType.identO : VType → Option Ident
  | .mk _ i _ _ _ _ _ _ _ _ _ => i

/-- The raw I_BASE item of a type object. -/
def VType.baseO : VType → VTypeO
  | .mk _ _ b _ _ _ _ _ _ _ _ => b

/-- The raw I_DIMS item of a type object. -/
def VType.dims : VType → List VRange
  | .mk _ _ _ d _ _ _ _ _ _ _ => d

/-- The raw I_ELEM item of a type object. -/
def VType.elemO : VType → VTypeO
  | .mk _ _ _ _ e _ _ _ _ _ _ => e

/-- The raw I_FIELDS item of a type object (as field types). -/
def VType.fieldsL : VType → VTypeL
  | .mk _ _ _ _ _ f _ _ _ _ _ => f

/-- The raw I_PTYPES item of a type object. -/
def VType.ptypes : VType → VTypeL
  | .mk _ _ _ _ _ _ p _ _ _ _ => p

/-- The raw I_RESULT item of a type object. -/
def VType.resultO : VType → VTypeO
  | .mk _ _ _ _ _ _ _ r _ _ _ => r

/-- The raw I_ACCESS item of a type object. -/
def VType.accO : VType → VTypeO
  | .mk _ _ _ _ _ _ _ _ a _ _ => a

/-- The raw I_INDEXCON item of a type object. -/
def VType.indexcon : VType → VTypeL
  | .mk _ _ _ _ _ _ _ _ _ ic _ => ic

/-- The raw I_CONSTR item of a type object (the ranges of the constraint,
when a constraint is present). -/
def VType.constr : VType → Option (List VRange)
  | .mk _ _ _ _ _ _ _ _ _ _ c => c

/-- Number of elements of a `type_array_t`. -/
def VTypeL.length : VTypeL → Nat
  | .nil => 0
  | .cons _ tl => tl.length + 1

mutual

/-- Executable structural size of a type object, used as recursion fuel by
the fuel-bounded functions below (the derived `sizeOf` instance of the
mutual family has no executable code). -/
def VType.msize : VType → Nat
  | .mk _ _ b _ e f p r a ic _ =>
      b.msize + e.msize + f.msize + p.msize + r.msize + a.msize + ic.msize + 1

/-- Executable size of an optional type reference. -/
def VTypeO.msize : VTypeO → Nat
  | .none => 0
  | .some t => t.msize + 1

/-- Executable size of a type list. -/
def VTypeL.msize : VTypeL → Nat
  | .nil => 0
  | .cons hd tl => hd.msize + tl.msize + 1

end

/-- `type_has_ident`: the I_IDENT item is non-NULL. -/
def type_has_ident (t : VType) : Bool := t.identO.isSome

/-- The ident check shared by `type_strict_eq` and `type_eq`: when both
types have an ident item, unequal idents make the comparison fail. -/
def ident_conflict (ia ib : Option Ident) : Bool :=
  match ia, ib with
  | Option.some i1, Option.some i2 => i1 != i2
  | _, _ => false

/-- Whether a kind's `has_map` entry contains I_ELEM (T_CARRAY and T_UARRAY). -/
def has_elem_item : TypeKind → Bool
  | .T_CARRAY => true
  | .T_UARRAY => true
  | _ => false

/-- Whether a kind's `has_map` entry contains I_DIMS (T_INTEGER, T_REAL,
T_ENUM, T_PHYSICAL and T_CARRAY). -/
def has_dims_item : TypeKind → Bool
  | .T_INTEGER => true
  | .T_REAL => true
  | .T_ENUM => true
  | .T_PHYSICAL => true
  | .T_CARRAY => true
  | _ => false

/-- Whether a kind's `has_map` entry contains I_PTYPES (T_FUNC and T_PROC). -/
def has_ptypes_item : TypeKind → Bool
  | .T_FUNC => true
  | .T_PROC => true
  | _ => false

/-- `type_access`: follows subtype bases, then reads the I_ACCESS item. -/
def type_access (t : VType) : VTypeO :=
  match t with
  | .mk .T_SUBTYPE _ (.some b) _ _ _ _ _ _ _ _ => type_access b
  | _ => t.accO

/-- `type_base_kind`: the kind reached by following subtype bases.  (On a
subtype whose base is missing the C code would assert; we return T_SUBTYPE.) -/
def type_base_kind (t : VType) : TypeKind :=
  match t with
  | .mk .T_SUBTYPE _ (.some b) _ _ _ _ _ _ _ _ => type_base_kind b
  | _ => t.kind

/-- `type_base_recur`: follows subtype bases down to a non-subtype. -/
def type_base_recur (t : VType) : VType :=
  match t with
  | .mk .T_SUBTYPE _ (.some b) _ _ _ _ _ _ _ _ => type_base_recur b
  | _ => t

/-- `type_elem`: subtypes delegate to their base, T_NONE returns itself,
otherwise the I_ELEM item is read (the C code asserts it is non-NULL; we
return the type itself on that ill-formed branch). -/
def type_elem (t : VType) : VType :=
  match t with
  | .mk .T_SUBTYPE _ (.some b) _ _ _ _ _ _ _ _ => type_elem b
  | .mk .T_NONE _ _ _ _ _ _ _ _ _ _ => t
  | .mk _ _ _ _ (.some e) _ _ _ _ _ _ => e
  | _ => t

/-- `type_is_unconstrained`: a subtype with a constraint is constrained, a
subtype without one defers to its base, and a non-subtype is unconstrained
iff it is T_UARRAY. -/
def type_is_unconstrained (t : VType) : Bool :=
  match t with
  | .mk .T_SUBTYPE _ b _ _ _ _ _ _ _ c =>
      if c.isSome then false
      else match b with
        | .some bb => type_is_unconstrained bb
        | .none => false
  | _ => t.kind = .T_UARRAY

/-- `type_has_constraint`. -/
def type_has_constraint (t : VType) : Bool := t.constr.isSome

/-- `type_is_array`. -/
def type_is_array (t : VType) : Bool :=
  type_base_kind t = .T_CARRAY || type_base_kind t = .T_UARRAY

/-- `type_is_record`. -/
def type_is_record (t : VType) : Bool := type_base_kind t = .T_RECORD

/-- `type_is_enum`. -/
def type_is_enum (t : VType) : Bool := type_base_kind t = .T_ENUM

/-- `type_is_physical`. -/
def type_is_physical (t : VType) : Bool := type_base_kind t = .T_PHYSICAL

/-- `type_is_integer`. -/
def type_is_integer (t : VType) : Bool := type_base_kind t = .T_INTEGER

/-- `type_is_real`. -/
def type_is_real (t : VType) : Bool := type_base_kind t = .T_REAL

/-- `type_is_scalar`. -/
def type_is_scalar (t : VType) : Bool :=
  type_base_kind t = .T_INTEGER || type_base_kind t = .T_REAL
    || type_base_kind t = .T_ENUM || type_base_kind t = .T_PHYSICAL
    || type_base_kind t = .T_NONE

/-- `type_is_universal`: an I_IDENT item equal to the interned name of the
universal integer (resp. real) type, on a type whose own kind is T_INTEGER
(resp. T_REAL). -/
def type_is_universal (t : VType) : Bool :=
  match t.kind with
  | .T_INTEGER => t.identO == Option.some universal_integer_id
  | .T_REAL => t.identO == Option.some universal_real_id
  | _ => false

/-- The parameter loop of `type_eq` (pairwise comparison of two
`type_array_t`s by a comparison function; the caller has already checked the
lengths agree). -/
def type_eq_list_go (f : VType → VType → Bool) : VTypeL → VTypeL → Bool
  | .nil, _ => true
  | .cons _ _, .nil => true
  | .cons x xs, .cons y ys => f x y && type_eq_list_go f xs ys

/-- The body of `type_eq` from src/type.c, with an explicit fuel bound on the
recursion depth (the recursion through `type_access`/`type_elem`/
`type_result`/the parameter loop is not structural).  The two `while` loops
reducing each side through its subtype chain are `type_base_recur`; the inner
recursive `type_eq(x, y)` calls run at the decremented fuel.  Each recursive
call strictly decreases the summed `msize` of the two arguments, so fuel
`a.msize + b.msize` (supplied by the `type_eq` wrapper) never runs out and
the fuel-exhaustion row is unreachable. -/
def type_eq_f : Nat → VType → VType → Bool
  | 0, _, _ => false
  | fuel+1, a, b =>
    if a = b then true
    else
      let a' := type_base_recur a
      let b' := type_base_recur b
      let ka := a'.kind
      let kb := b'.kind
      let compare_c_u_arrays :=
        (ka = .T_CARRAY ∧ kb = .T_UARRAY) ∨ (ka = .T_UARRAY ∧ kb = .T_CARRAY)
      let incomplete := ka = .T_INCOMPLETE ∨ kb = .T_INCOMPLETE
      if ka ≠ kb ∧ ¬compare_c_u_arrays ∧ ¬incomplete then false
      else if ident_conflict a'.identO b'.identO then false
      else if incomplete then true
      else if ka = .T_ACCESS then
        -- type_eq(type_access(a), type_access(b)); on a non-subtype node
        -- `type_access` reads the I_ACCESS item
        match a'.accO, b'.accO with
        | .some aa1, .some ab1 => type_eq_f fuel aa1 ab1
        | .none, .none => true
        | _, _ => false
      else if compare_c_u_arrays then
        -- type_eq(type_elem(a), type_elem(b)); on a T_CARRAY/T_UARRAY node
        -- `type_elem` reads the I_ELEM item
        match a'.elemO, b'.elemO with
        | .some ea1, .some eb1 => type_eq_f fuel ea1 eb1
        | .none, .none => true
        | _, _ => false
      else if has_dims_item ka ∧ a'.dims.length ≠ b'.dims.length then false
      else
        let resOk :=
          if ka = .T_FUNC then
            -- type_eq(type_result(a), type_result(b))
            match a'.resultO, b'.resultO with
            | .some ra1, .some rb1 => type_eq_f fuel ra1 rb1
            | .none, .none => true
            | _, _ => false
          else true
        if ¬resOk then false
        else if has_ptypes_item ka then
          a'.ptypes.length == b'.ptypes.length
            && type_eq_list_go (type_eq_f fuel) a'.ptypes b'.ptypes
        else true
termination_by structural fuel => fuel

/-- `type_eq` from src/type.c: the fueled body at fuel `a.msize + b.msize`,
which exceeds the recursion depth on every input. -/
def type_eq (a b : VType) : Bool := type_eq_f (a.msize + b.msize) a b

mutual

/-- `type_strict_eq` from src/type.c: pointer equality, kind equality, the
ident check, then for access types `type_eq` of the designated types, for
element-carrying kinds recursive strict equality of elements (dims are not
reached), then dims count, function result, and parameter types. -/
def type_strict_eq : VType → VType → Bool
  | a@(.mk ka ia _ da ea _ pa ra xa _ _), b@(.mk kb ib _ db eb _ pb rb xb _ _) =>
    if a = b then true
    else if ka ≠ kb then false
    else if ident_conflict ia ib then false
    else if ka = .T_ACCESS then
      -- type_eq(type_access(a), type_access(b)); on a non-subtype node
      -- `type_access` reads the I_ACCESS item
      match xa, xb with
      | .some aa, .some ba => type_eq aa ba
      | .none, .none => true
      | _, _ => false
    else if has_elem_item ka then
      match ea, eb with
      | .some ea1, .some eb1 => type_strict_eq ea1 eb1
      | .none, .none => true
      | _, _ => false
    else if has_dims_item ka ∧ da.length ≠ db.length then false
    else
      let resOk :=
        if ka = .T_FUNC then
          match ra, rb with
          | .some ra1, .some rb1 => type_strict_eq ra1 rb1
          | .none, .none => true
          | _, _ => false
        else true
      if ¬resOk then false
      else if has_ptypes_item ka then
        pa.length == pb.length && type_strict_eq_list pa pb
      else true
termination_by structural a => a

/-- Pairwise `type_strict_eq` over two parameter lists (the parameter loop
of `type_strict_eq`; lengths are checked by the caller). -/
def type_strict_eq_list : VTypeL → VTypeL → Bool
  | .nil, _ => true
  | .cons _ _, .nil => true
  | .cons x xs, .cons y ys => type_strict_eq x y && type_strict_eq_list xs ys
termination_by structural xs => xs

end

/-- `type_is_convertible` from src/type.c (LRM 08 section 9.3.6): a T_NONE
source suppresses cascading errors, otherwise only a universal source and a
non-universal destination of the same integer/real family are convertible. -/
def type_is_convertible (f t : VType) : Bool :=
  let fromk := type_base_kind f
  let tok := type_base_kind t
  if fromk = .T_NONE then true
  else if ¬type_is_universal f then false
  else if type_is_universal t then false
  else if fromk = .T_INTEGER ∧ tok = .T_INTEGER then true
  else if fromk = .T_REAL ∧ tok = .T_REAL then true
  else false

/-! ## Layout (jit-layout), claims C1 and C4

The repository contains two copies of `layout_of` (both in the supplied
sources).  Helper functions from common.c / util.h (`dimension_of`,
`range_of`, `folded_length`, `folded_bounds`, `type_elem_recur`,
`bits_for_range`, `ALIGN_UP`) are not among the supplied sources and are
modelled from the spec, as documented on each definition.  Recursion through
helper chains (`type_elem_recur`, `type_base_recur`) is not structural, so
the recursive functions take an explicit fuel argument; the wrappers supply
`sizeOf t` fuel, which exceeds the recursion depth, keeping every définition
kernel-computable. -/

/-- Modelled from the spec: ALIGN_UP from util.h rounds `x` up to the next
multiple of the alignment `a` ("at the field's aligned offset"); `a = 0`
leaves `x` unchanged. -/
def align_up (x a : Nat) : Nat := if a = 0 then x else ((x + a - 1) / a) * a

/-- Fuel-bounded count of binary digits (`Nat.log2` is not
kernel-computable). -/
def nat_bits_f : Nat → Nat → Nat
  | 0, _ => 0
  | fuel+1, n => if n = 0 then 0 else nat_bits_f fuel (n / 2) + 1

/-- Number of bits needed for an unsigned value (at least 1). -/
def bits_unsigned (v : Nat) : Nat := if v = 0 then 1 else nat_bits_f v v

/-- Modelled from the spec: `bits_for_range(low, high)` is the bit width of
the scalar range ("one DATA part of ceil(bits_for_range(lo,hi)/8) bytes");
non-negative ranges need the bits of `high`, ranges with negative values a
sign bit more.  Always at least 1. -/
def bits_for_range (low high : Int) : Nat :=
  if low < 0 then 1 + max (bits_unsigned (-low - 1).toNat) (bits_unsigned high.toNat)
  else bits_unsigned high.toNat

/-- Part classes of `layout_part_t`, in the order of `print_layout`'s
`map[] = { "data", "bounds", "offset", "external" }`; LC_DATA is the zero
member, which `xcalloc` leaves in parts whose class is never assigned. -/
inductive LayoutClass where
  | LC_DATA
  | LC_BOUNDS
  | LC_OFFSET
  | LC_EXTERNAL
  deriving DecidableEq

/-- A `layout_part_t`: offset, size, repeat count (`rep` here; `repeat` is a
Lean keyword), alignment and class (`cls` here; `class` is a Lean keyword). -/
structure LayoutPart where
  offset : Nat
  size : Nat
  rep : Nat
  align : Nat
  cls : LayoutClass
  deriving DecidableEq

/-- A `jit_layout_t`: total size, alignment, and the parts (`nparts` is the
list length). -/
structure JitLayout where
  size : Nat
  align : Nat
  parts : List LayoutPart
  deriving DecidableEq

/-- `type_fields` follows subtype bases before reading the I_FIELDS item. -/
def type_fields_of (t : VType) : VTypeL :=
  match t with
  | .mk .T_SUBTYPE _ (.some b) _ _ _ _ _ _ _ _ => type_fields_of b
  | _ => t.fieldsL

/-- Modelled from the spec: `dimension_of` from common.c.  A subtype defers
to its base, an unconstrained array counts its index constraints, other
kinds count their I_DIMS ranges. -/
def dimension_of (t : VType) : Nat :=
  match t with
  | .mk .T_SUBTYPE _ (.some b) _ _ _ _ _ _ _ _ => dimension_of b
  | .mk .T_UARRAY _ _ _ _ _ _ _ _ ic _ => ic.length
  | _ => t.dims.length

/-- Modelled from the spec: the ranges `range_of(t, 0) .. range_of(t, n-1)`
of a constrained type.  A subtype with a constraint uses the constraint's
ranges, one without defers to its base; an unconstrained array has none. -/
def ranges_of (t : VType) : List VRange :=
  match t with
  | .mk .T_SUBTYPE _ _ _ _ _ _ _ _ _ (Option.some rs) => rs
  | .mk .T_SUBTYPE _ (.some b) _ _ _ _ _ _ _ Option.none => ranges_of b
  | .mk .T_UARRAY _ _ _ _ _ _ _ _ _ _ => []
  | _ => t.dims

/-- Modelled from the spec: `folded_length` of a range: the element count
`high - low + 1` (clamped at 0 for null ranges) when the bounds are
statically known, `none` otherwise. -/
def folded_length (r : VRange) : Option Nat :=
  match r.folded with
  | Option.some (lo, hi) => Option.some (hi - lo + 1).toNat
  | Option.none => Option.none

/-- Fuel-bounded body of `type_elem_recur` (modelled from the spec: follow
`type_elem` while the type is an array). -/
def type_elem_recur_f : Nat → VType → VType
  | 0, t => t
  | fuel+1, t => if type_is_array t then type_elem_recur_f fuel (type_elem t) else t

/-- `type_elem_recur`: the ultimate non-array element type. -/
def type_elem_recur (t : VType) : VType := type_elem_recur_f t.msize t

/-- Fuel-bounded `count_sub_elements` (identical in both layout copies):
`none` models the C result -1 (unconstrained array or non-static bounds);
otherwise the product of the element count of the element type with every
dimension's folded length. -/
def count_sub_elements_f : Nat → VType → Option Nat
  | 0, _ => Option.none
  | fuel+1, t =>
    if type_is_array t then
      if type_is_unconstrained t then Option.none
      else
        match count_sub_elements_f fuel (type_elem t) with
        | Option.none => Option.none
        | Option.some len =>
            (ranges_of t).foldl
              (fun acc r =>
                match acc, folded_length r with
                | Option.some l, Option.some d => Option.some (l * d)
                | _, _ => Option.none)
              (Option.some len)
    else Option.some 1

/-- `count_sub_elements`, with enough fuel for any input. -/
def count_sub_elements (t : VType) : Option Nat := count_sub_elements_f t.msize t

/-- The field loop shared by both `layout_of` copies: lay every field out at
its `ALIGN_UP`-aligned offset using the supplied recursive layout function,
returning the final offset (the record size) and the parts.  (The first copy
assigns LC_DATA to each part; the second leaves the calloc zero, which is
also LC_DATA.) -/
def layout_fields_go (layoutFn : VType → Option JitLayout) :
    VTypeL → Nat → List LayoutPart → Option (Nat × List LayoutPart)
  | .nil, offset, acc => Option.some (offset, acc.reverse)
  | .cons f fs, offset, acc =>
    match layoutFn f with
    | Option.none => Option.none
    | Option.some fl =>
      let off2 := align_up offset fl.align
      layout_fields_go layoutFn fs (off2 + fl.size)
        ({ offset := off2, size := fl.size, rep := 1, align := fl.align,
           cls := .LC_DATA } :: acc)

/-- Fuel-bounded first copy of `layout_of` (the copy that uses INIT_ONCE and
assigns part classes): scalar integer/physical/enum, real, constrained
array, subtype-of-unconstrained-array redirection to the base's layout,
materialized unconstrained array (EXTERNAL pointer + BOUNDS), and record.
`none` models `fatal_trace` (including unknown scalar bounds) and the
memoization cache is irrelevant to the produced value. -/
def layout_of_f : Nat → VType → Option JitLayout
  | 0, _ => Option.none
  | fuel+1, t =>
    if type_is_integer t || type_is_physical t || type_is_enum t then
      match (type_base_recur t).dims.head? with
      | Option.none => Option.none
      | Option.some r =>
        match r.folded with
        | Option.none => Option.none
        | Option.some (low, high) =>
          let sz := align_up (bits_for_range low high) 8 / 8
          Option.some
            { size := sz, align := sz,
              parts := [{ offset := 0, size := sz, rep := 1, align := sz,
                          cls := .LC_DATA }] }
    else if type_is_real t then
      Option.some
        { size := 8, align := 8,
          parts := [{ offset := 0, size := 8, rep := 1, align := 8, cls := .LC_DATA }] }
    else if type_is_array t then
      let ndims := dimension_of t
      match count_sub_elements t with
      | Option.some nelems =>
        match layout_of_f fuel (type_elem_recur t) with
        | Option.none => Option.none
        | Option.some el =>
          Option.some
            { size := nelems * el.size, align := el.align,
              parts := [{ offset := 0, size := el.size, rep := nelems, align := el.align,
                          cls := .LC_DATA }] }
      | Option.none =>
        if t.kind = .T_SUBTYPE then
          -- "Reduce number of cached copies"
          layout_of_f fuel (type_base_recur t)
        else
          Option.some
            { size := 8 + ndims * 2 * 8, align := 8,
              parts := [{ offset := 0, size := 8, rep := 1, align := 8,
                          cls := .LC_EXTERNAL },
                        { offset := 8, size := 8, rep := ndims * 2, align := 8,
                          cls := .LC_BOUNDS }] }
    else if type_is_record t then
      match layout_fields_go (layout_of_f fuel) (type_fields_of t) 0 [] with
      | Option.none => Option.none
      | Option.some (sz, parts) =>
          Option.some { size := sz, align := 8, parts := parts }
    else Option.none

/-- First copy of `layout_of`, with enough fuel for any input. -/
def layout_of (t : VType) : Option JitLayout := layout_of_f t.msize t

/-- Fuel-bounded second copy of `layout_of` (the later file in the sources):
tests `nelems < 0` first, never redirects subtypes to their base, and never
assigns part classes, so every part keeps the calloc zero class LC_DATA. -/
def layout_of2_f : Nat → VType → Option JitLayout
  | 0, _ => Option.none
  | fuel+1, t =>
    if type_is_integer t || type_is_physical t || type_is_enum t then
      match (type_base_recur t).dims.head? with
      | Option.none => Option.none
      | Option.some r =>
        match r.folded with
        | Option.none => Option.none
        | Option.some (low, high) =>
          let sz := align_up (bits_for_range low high) 8 / 8
          Option.some
            { size := sz, align := sz,
              parts := [{ offset := 0, size := sz, rep := 1, align := sz,
                          cls := .LC_DATA }] }
    else if type_is_real t then
      Option.some
        { size := 8, align := 8,
          parts := [{ offset := 0, size := 8, rep := 1, align := 8, cls := .LC_DATA }] }
    else if type_is_array t then
      let ndims := dimension_of t
      match count_sub_elements t with
      | Option.none =>
        Option.some
          { size := 8 + ndims * 2 * 8, align := 8,
            parts := [{ offset := 0, size := 8, rep := 1, align := 8, cls := .LC_DATA },
                      { offset := 8, size := 8, rep := ndims * 2, align := 8,
                        cls := .LC_DATA }] }
      | Option.some nelems =>
        -- elem = type_elem(type); while (type_is_array(elem)) elem = type_elem(elem)
        match layout_of2_f fuel (type_elem_recur (type_elem t)) with
        | Option.none => Option.none
        | Option.some el =>
          Option.some
            { size := nelems * el.size, align := el.align,
              parts := [{ offset := 0, size := el.size, rep := nelems, align := el.align,
                          cls := .LC_DATA }] }
    else if type_is_record t then
      match layout_fields_go (layout_of2_f fuel) (type_fields_of t) 0 [] with
      | Option.none => Option.none
      | Option.some (sz, parts) =>
          Option.some { size := sz, align := 8, parts := parts }
    else Option.none

/-- Second copy of `layout_of`, with enough fuel for any input. -/
def layout_of2 (t : VType) : Option JitLayout := layout_of2_f t.msize t

/-- A layout with its part classes erased, for comparing the two copies
numerically (size, align, and every part's offset/size/repeat/align). -/
def erase_classes (l : JitLayout) : Nat × Nat × List (Nat × Nat × Nat × Nat) :=
  (l.size, l.align, l.parts.map (fun p => (p.offset, p.size, p.rep, p.align)))

/-- `layout_wf` over a field list. -/
def layout_wf_go (w : VType → Bool) : VTypeL → Bool
  | .nil => true
  | .cons f fs => w f && layout_wf_go w fs

/-- Fuel-bounded well-formedness for comparing the two `layout_of` copies:
follows exactly the recursion of `layout_of`, and in the one place the copies
take different paths — an array subtype whose element count is not statically
known, where the first copy redirects to `type_base_recur` and the second
materializes an unconstrained layout directly — requires the base to be a
T_UARRAY (so the first copy's redirect also materializes an unconstrained
layout, of the same dimension count).  A subtype of a constrained array with
non-static bounds is excluded: there the two copies genuinely return
different numbers. -/
def layout_wf_f : Nat → VType → Bool
  | 0, _ => false
  | fuel+1, t =>
    if type_is_integer t || type_is_physical t || type_is_enum t then true
    else if type_is_real t then true
    else if type_is_array t then
      match count_sub_elements t with
      | Option.some _ => layout_wf_f fuel (type_elem_recur t)
      | Option.none =>
        if t.kind = .T_SUBTYPE then
          layout_wf_f fuel (type_base_recur t)
            && (type_base_recur t).kind = .T_UARRAY
        else true
    else if type_is_record t then layout_wf_go (layout_wf_f fuel) (type_fields_of t)
    else true

/-- `layout_wf`, with enough fuel for any input. -/
def layout_wf (t : VType) : Bool := layout_wf_f t.msize t

/-- Σ parts[i].size * parts[i].repeat, the storage the parts describe. -/
abbrev part_sum (ps : List LayoutPart) : Nat := (ps.map (fun p => p.size * p.rep)).sum

/-- The C1 property (strengthened with positive alignments so that it is
inductive): the parts fit in `size`, and every part sits at an offset that is
a multiple of its (positive) alignment. -/
abbrev layout_inv (l : JitLayout) : Prop :=
  part_sum l.parts ≤ l.size ∧ 1 ≤ l.align
    ∧ ∀ p ∈ l.parts, p.align ∣ p.offset ∧ 1 ≤ p.align

/-! ## Power-of-two sizes and the bit mixers (util.c / util.h) -/

/-- `next_power_of_2` from src/util.c, as a function on naturals: the
bit-smearing computes the smallest power of two that is at least `n`
(with `next_power_of_2 0 = 0`, as in C). -/
def next_power_of_2 (n : Nat) : Nat :=
  if n ≤ 1 then n else 2 ^ nat_bits_f (n - 1) (n - 1)

/-- Modelled from the spec: `mix_bits_64` from util.h ("`mix_bits_64` of the
pointer"; "SplitMix64 mixing"), a SplitMix64-style finalizer on 64-bit
words. -/
def mix_bits_64 (key : Nat) : Nat :=
  let k1 := (key ^^^ (key >>> 30)) * 0xbf58476d1ce4e5b9 % 2 ^ 64
  let k2 := (k1 ^^^ (k1 >>> 27)) * 0x94d049bb133111eb % 2 ^ 64
  (k2 ^^^ (k2 >>> 31)) % 2 ^ 64

/-- `hash_slot` from src/hash.c: `mix_bits_64((uintptr_t)key) & (size - 1)`.
Pointers are modelled as natural-number addresses (NULL, asserted against,
is excluded by using any key value). -/
def hash_slot (size : Nat) (key : Nat) : Nat := mix_bits_64 key &&& (size - 1)

/-! ## Concurrent hash table (chash), claim C5

Sequential model of the lock-free table: each slot holds its chain as a
list, head first.  In the absence of interference `atomic_cas(p, NULL, new)`
succeeds on the first attempt, at the chain position `p` had walked to. -/

/-- A `chash_t`: the slot array of per-slot chains.  Each chain lists the
nodes in pointer order from the slot head. -/
structure CHash (V : Type) where
  size : Nat
  slots : List (List (Nat × V))

/-- `chash_new`: `next_power_of_2 size` empty slots. -/
def chash_new (V : Type) (size : Nat) : CHash V :=
  { size := next_power_of_2 size,
    slots := List.replicate (next_power_of_2 size) [] }

/-- The chain walk of `chash_put`: update the value in place when the key is
found (`store_release` into the matching node), otherwise the CAS installs
the new node at the NULL chain pointer the walk ended on — the tail of the
chain.  Returns the new chain and whether the key already existed. -/
def chash_chain_put (chain : List (Nat × V)) (key : Nat) (value : V) :
    List (Nat × V) × Bool :=
  match chain with
  | [] => ([(key, value)], false)
  | (k0, v0) :: rest =>
    if k0 = key then ((k0, value) :: rest, true)
    else
      let r := chash_chain_put rest key value
      ((k0, v0) :: r.1, r.2)

/-- `chash_put` from src/hash.c. -/
def chash_put (h : CHash V) (key : Nat) (value : V) : CHash V × Bool :=
  let slot := hash_slot h.size key
  let r := chash_chain_put (h.slots.getD slot []) key value
  ({ h with slots := h.slots.set slot r.1 }, r.2)

/-- What the claim describes: the newly allocated node is installed as the
head of its slot's chain.  (Written from the claim's words, for comparison
with `chash_put`.) -/
def chash_put_head_claim (h : CHash V) (key : Nat) (value : V) : CHash V × Bool :=
  let slot := hash_slot h.size key
  let chain := h.slots.getD slot []
  if chain.any (fun n => n.1 = key) then
    let updated := chain.map (fun n => if n.1 = key then (n.1, value) else n)
    ({ h with slots := h.slots.set slot updated }, true)
  else
    ({ h with slots := h.slots.set slot ((key, value) :: chain) }, false)

/-- `chash_get` from src/hash.c: walk the chain with acquire loads. -/
def chash_get (h : CHash V) (key : Nat) : Option V :=
  let slot := hash_slot h.size key
  ((h.slots.getD slot []).find? (fun n => n.1 = key)).map Prod.snd

/-! ## Diagnostics (error_at / show_hint from src/util.c), claim C7 -/

/-- A hint queued by `hint_at`: a location and a message (handles).  Queued
hints are dispatched through `default_hint_fn`, which calls `note_at`. -/
structure Hint where
  loc : Nat
  msg : Nat
  deriving DecidableEq

/-- An observable emission of the diagnostic machinery: a call to the
installed error callback `error_fn`, or a `notef` print from `msg_at`. -/
inductive DiagOut where
  | errorOut (msg : Nat) (loc : Nat)
  | noteOut (msg : Nat) (loc : Nat)
  deriving DecidableEq

/-- The global diagnostic state of src/util.c: the accumulated `n_errors`,
the `hints` stack (newest first), the `opt_get_int("unit-test")` option, and
the trace of emissions (oldest first).  The process never terminates on
`error_at`: every emission goes through `error_fn` or a print. -/
structure DiagState where
  n_errors : Nat
  hints : List Hint
  unit_test : Bool
  out : List DiagOut
  deriving DecidableEq

/-- One hint dispatch inside `show_hint`: `default_hint_fn` calls `note_at`,
whose `catch_in_unit_test` invokes the error callback in unit-test mode and
prints a note otherwise; the nested `show_hint` is a no-op (the `inside`
guard), and in unit-test mode `note_at` then increments `n_errors`. -/
def run_hint (st : DiagState) (h : Hint) : DiagState :=
  if st.unit_test then
    { st with out := st.out ++ [.errorOut h.msg h.loc], n_errors := st.n_errors + 1 }
  else
    { st with out := st.out ++ [.noteOut h.msg h.loc] }

/-- `show_hint`: pop and dispatch every queued hint. -/
def show_hint (st : DiagState) : DiagState :=
  { st.hints.foldl run_hint st with hints := [] }

/-- `hint_at`: push a hint onto the queue. -/
def hint_at (st : DiagState) (loc msg : Nat) : DiagState :=
  { st with hints := ⟨loc, msg⟩ :: st.hints }

/-- `error_at` from src/util.c: prepare the message, call the installed
`error_fn`, flush the hint queue via `show_hint`, then increment
`n_errors`. -/
def error_at (st : DiagState) (loc msg : Nat) : DiagState :=
  let st1 := { st with out := st.out ++ [.errorOut msg loc] }
  let st2 := show_hint st1
  { st2 with n_errors := st2.n_errors + 1 }

/-- `error_count`. -/
def error_count (st : DiagState) : Nat := st.n_errors

/-! ## VCD waveform sink (src/rt/vcd.c), claim C8 -/

/-- UINT64_MAX, the initial value of `vcd_event_cb`'s static `last_time`. -/
def UINT64_MAX : Nat := 2 ^ 64 - 1

/-- A line written by the VCD event callback: a `#<time>` record or a value
record for a signal. -/
inductive VcdRec where
  | timeRec (t : Nat)
  | valueRec (decl : Nat)
  deriving DecidableEq

/-- The VCD sink state: the static `last_time` and the file contents (the
records written so far, oldest first). -/
structure VcdState where
  last_time : Nat
  out : List VcdRec
  deriving DecidableEq

/-- The state at the first callback: `last_time = UINT64_MAX`, nothing
written by the callback yet. -/
def vcd_init_state : VcdState := { last_time := UINT64_MAX, out := [] }

/-- `vcd_event_cb` from src/rt/vcd.c: write a `#<time>` record only when
`now` differs from `last_time`, then the value record via `emit_value`. -/
def vcd_event_cb (st : VcdState) (now : Nat) (decl : Nat) : VcdState :=
  let st2 :=
    if now ≠ st.last_time then { st with out := st.out ++ [.timeRec now], last_time := now }
    else st
  { st2 with out := st2.out ++ [.valueRec decl] }

/-- Run the callback over a sequence of (time, signal) events. -/
def vcd_run (st : VcdState) (events : List (Nat × Nat)) : VcdState :=
  events.foldl (fun s e => vcd_event_cb s e.1 e.2) st

/-- The timestamps of the `#<time>` records, in file order. -/
def vcd_times (out : List VcdRec) : List Nat :=
  out.filterMap (fun r => match r with | .timeRec t => Option.some t | _ => Option.none)

/-! ## Verilog simplification (src/vlog/vlog-simp.c), claim C10

`vlog_rewrite` and `ident_uniq` live outside the supplied sources and are
modelled from the spec: the rewrite applies the callback to every node of
the module (net and port declarations are the only kinds the callback
transforms), and `unique(base) → ident` is "guaranteed fresh in the run",
modelled by a monotonically increasing counter baked into the identifier. -/

/-- Verilog identifiers: parser-created names, the `name + "pull"` prefix
composition for supply-net gates, and the `ident_uniq("__assign#" + name)`
result carrying the run-global freshness counter. -/
inductive VlIdent where
  | plain (n : Nat)
  | pulled (base : VlIdent)
  | assigned (base : VlIdent) (counter : Nat)
  deriving DecidableEq

/-- Net kinds (`vlog_net_kind_t` values used by `simp_net_decl`). -/
inductive VlNetKind where
  | V_NET_WIRE
  | V_NET_SUPPLY0
  | V_NET_SUPPLY1
  deriving DecidableEq

/-- Gate kinds produced for supply nets. -/
inductive VlGateKind where
  | V_GATE_PULLDOWN
  | V_GATE_PULLUP
  deriving DecidableEq

/-- An expression (the initial value of a net declaration), opaque to the
simplifier: it is moved, never inspected. -/
structure VlExpr where
  payload : Nat
  deriving DecidableEq

/-- Module-level declarations touched by the rewrite callback. -/
inductive VlDecl where
  | netDecl (kind : VlNetKind) (id : VlIdent) (value : Option VlExpr)
  | portDecl (id : VlIdent) (hasRef : Bool)
  deriving DecidableEq

/-- Module-level statements produced by the simplifier: continuous
assignments (V_ASSIGN with a V_REF target) and pull gates (V_GATE_INST with
an ST_SUPPLY strength parameter and a V_REF target). -/
inductive VlStmt where
  | assign (id : VlIdent) (targetIdent : VlIdent) (value : VlExpr)
  | gateInst (gkind : VlGateKind) (id : VlIdent) (targetIdent : VlIdent)
  deriving DecidableEq

/-- A Verilog module: its declarations and statements. -/
structure VlModule where
  decls : List VlDecl
  stmts : List VlStmt
  deriving DecidableEq

/-- `simp_net_decl` from src/vlog/vlog-simp.c, acting on one net
declaration: supply nets get a pull gate appended to the module; a
declaration with a value has the value moved into a fresh uniquely-named
continuous assignment appended to the module and its own value set to NULL.
Takes and returns the module statement list and the `ident_uniq` counter. -/
def simp_net_decl (kind : VlNetKind) (id : VlIdent) (value : Option VlExpr)
    (stmts : List VlStmt) (counter : Nat) :
    VlDecl × List VlStmt × Nat :=
  let stmts1 :=
    if kind = .V_NET_SUPPLY0 then
      stmts ++ [.gateInst .V_GATE_PULLDOWN (.pulled id) id]
    else if kind = .V_NET_SUPPLY1 then
      stmts ++ [.gateInst .V_GATE_PULLUP (.pulled id) id]
    else stmts
  match value with
  | Option.some v =>
      (.netDecl kind id Option.none,
       stmts1 ++ [.assign (.assigned id counter) id v],
       counter + 1)
  | Option.none => (.netDecl kind id Option.none, stmts1, counter)

/-- `simp_port_decl`: a port declaration without a ref gets a fresh wire
declaration appended to the module and its ref set to it. -/
def simp_port_decl (id : VlIdent) (hasRef : Bool) :
    VlDecl × List VlDecl :=
  if hasRef then (.portDecl id true, [])
  else (.portDecl id true, [.netDecl .V_NET_WIRE id Option.none])

/-- Modelled from the spec: `vlog_rewrite(mod, vlog_simp_cb, mod)` applies
the callback to every node; only net and port declarations are transformed,
and the nodes the callback appends to the module (gates, assignments, wire
declarations) end up after the existing ones. -/
def vlog_simp_step (acc : List VlDecl × List VlDecl × List VlStmt × Nat)
    (d : VlDecl) : List VlDecl × List VlDecl × List VlStmt × Nat :=
  let (ds, extra, ss, c) := acc
  match d with
  | .netDecl k id v =>
      let r := simp_net_decl k id v ss c
      (ds ++ [r.1], extra, r.2.1, r.2.2)
  | .portDecl id hasRef =>
      let r := simp_port_decl id hasRef
      (ds ++ [r.1], extra ++ r.2, ss, c)

def vlog_simp (m : VlModule) (counter : Nat) : VlModule × Nat :=
  let r := m.decls.foldl vlog_simp_step ([], [], m.stmts, counter)
  ({ decls := r.1 ++ r.2.1, stmts := r.2.2.1 }, r.2.2.2)

/-- The freshness counter of a generated continuous assignment. -/
def assign_counter : VlStmt → Option Nat
  | .assign (.assigned _ n) _ _ => Option.some n
  | _ => Option.none

/-! ## Open-addressing hash tables (src/hash.c), claims C6 and C9

One generic core covers the three open-addressing maps:
`hash_t` (pointer→pointer, quadratic probing with increments 1,2,3,…),
`shash_t` (string→pointer, linear probing, DJB2 hash, keys copied by
`xstrdup`, so keys are compared and stored by value) and `ihash_t`
(u64→pointer, linear probing, SplitMix64 mixing, an occupancy bitmap —
modelled by the `Option` key — and a single-entry cache).  The generic
functions take the raw hash function `hashF` and the probe offset function
`off` (`tri` for quadratic, `id` for linear).  The C code masks with
`& (size - 1)` after each increment; for the power-of-two sizes `hash_new`
creates this equals masking the accumulated offset once, which is how
`oa_pos` is written. -/

/-- Triangular numbers: the accumulated probe offset of
`for (int i = 1; ; slot = (slot + i++) & (h->size - 1))`. -/
def tri (j : Nat) : Nat := j * (j + 1) / 2

/-- A slot: `key = none` is a NULL key (slot never occupied); `val = none`
is a NULL value (as stored by `hash_delete`, or an explicitly NULL value). -/
structure OASlot (K V : Type) where
  key : Option K
  val : Option V
  deriving DecidableEq

/-- An open-addressing table: capacity, member count and the slot array. -/
structure OATable (K V : Type) where
  size : Nat
  members : Nat
  slots : List (OASlot K V)
  deriving DecidableEq

/-- A fresh table of `next_power_of_2 size` calloc-zeroed slots (`hash_new`,
`shash_new`, `ihash_new`). -/
def oa_new (K V : Type) (size : Nat) : OATable K V :=
  { size := next_power_of_2 size, members := 0,
    slots := List.replicate (next_power_of_2 size) ⟨Option.none, Option.none⟩ }

/-- Whether `n` is a power of two (executable). -/
def oa_pow2 (n : Nat) : Bool := n ≠ 0 && n == 2 ^ (nat_bits_f n n - 1)

/-- The slot index probed at step `j` for key `k`:
`(hash + offset) & (size - 1)`. -/
def oa_pos (hashF : K → Nat) (off : Nat → Nat) (size : Nat) (k : K) (j : Nat) : Nat :=
  (hashF k + off j) &&& (size - 1)

/-- The slot contents at index `s` (out-of-range reads give a NULL slot;
the invariant keeps every probe in range). -/
def oa_slotAt (t : OATable K V) (s : Nat) : OASlot K V :=
  t.slots.getD s ⟨Option.none, Option.none⟩

/-- Whether the probe loop stops at slot `s` when searching `k`: the slot
holds `k`, or its key is NULL. -/
def oa_stop [DecidableEq K] (t : OATable K V) (k : K) (s : Nat) : Bool :=
  match (oa_slotAt t s).key with
  | Option.none => true
  | Option.some k2 => k2 = k

/-- The first probe step (if any, within `size` probes) at which the search
for `k` stops.  The C loops probe unboundedly; under the invariant the
first `size` probes visit every slot and a NULL slot exists, so the loop
always stops within them. -/
def oa_findJ [DecidableEq K] (hashF : K → Nat) (off : Nat → Nat)
    (t : OATable K V) (k : K) : Option Nat :=
  (List.range t.size).find? (fun j => oa_stop t k (oa_pos hashF off t.size k j))

/-- `hash_get` / `shash_get` / the probe loop of `ihash_get`: value of the
stopping slot when its key matches, NULL when the stopping slot is empty. -/
def oa_get [DecidableEq K] (hashF : K → Nat) (off : Nat → Nat)
    (t : OATable K V) (k : K) : Option V :=
  match oa_findJ hashF off t k with
  | Option.some j =>
    let s := oa_pos hashF off t.size k j
    if (oa_slotAt t s).key = Option.some k then (oa_slotAt t s).val else Option.none
  | Option.none => Option.none

/-- Replace the slot at index `s`. -/
def oa_set (t : OATable K V) (s : Nat) (sl : OASlot K V) : OATable K V :=
  { t with slots := t.slots.set s sl }

/-- The insertion loop shared by the three `*_put` functions (no rehash):
at the stopping slot, overwrite the value when the key is already there
(returning true), or claim the NULL slot for the key and bump `members`
(returning false, the fresh-insertion result of `hash_put`). -/
def oa_put_core [DecidableEq K] (hashF : K → Nat) (off : Nat → Nat)
    (t : OATable K V) (k : K) (v : Option V) : OATable K V × Bool :=
  match oa_findJ hashF off t k with
  | Option.some j =>
    let s := oa_pos hashF off t.size k j
    match (oa_slotAt t s).key with
    | Option.some _ => (oa_set t s ⟨(oa_slotAt t s).key, v⟩, true)
    | Option.none =>
        ({ oa_set t s ⟨Option.some k, v⟩ with members := t.members + 1 }, false)
  | Option.none => (t, false)

/-- The rebuild performed when a put finds `members >= size / 2`: double
the capacity, zero the slots, and reinsert every slot with a non-NULL key
in index order (including entries whose value was NULLed by a delete).
The C code reinserts through the full `*_put`; the old table was at most
half full, so the reinsertions into the doubled table never see
`members >= size / 2` again and `oa_put_core` is the same function there
(the half-load bound is carried through `oa_rehash_fold_spec` below). -/
def oa_fresh {K V : Type} (n : Nat) : OATable K V :=
  { size := n, members := 0,
    slots := List.replicate n ⟨Option.none, Option.none⟩ }

def oa_rehash [DecidableEq K] (hashF : K → Nat) (off : Nat → Nat)
    (t : OATable K V) : OATable K V :=
  t.slots.foldl
    (fun acc sl =>
      match sl.key with
      | Option.some k => (oa_put_core hashF off acc k sl.val).1
      | Option.none => acc)
    (oa_fresh (2 * t.size))

/-- `hash_put` / `shash_put` / `ihash_put` (table part): rehash at load ½,
then insert. -/
def oa_put [DecidableEq K] (hashF : K → Nat) (off : Nat → Nat)
    (t : OATable K V) (k : K) (v : Option V) : OATable K V × Bool :=
  let t1 := if t.members ≥ t.size / 2 then oa_rehash hashF off t else t
  oa_put_core hashF off t1 k v

/-- `hash_delete` / `shash_delete`: NULL the value of the stopping slot
when its key matches; a NULL stopping slot means the key is absent and
nothing changes.  The key, and the slot's occupancy, remain. -/
def oa_delete [DecidableEq K] (hashF : K → Nat) (off : Nat → Nat)
    (t : OATable K V) (k : K) : OATable K V :=
  match oa_findJ hashF off t k with
  | Option.some j =>
    let s := oa_pos hashF off t.size k j
    match (oa_slotAt t s).key with
    | Option.some _ => oa_set t s ⟨(oa_slotAt t s).key, Option.none⟩
    | Option.none => t
  | Option.none => t

/-- The pairs produced by `hash_iter`: slots whose key and value are both
non-NULL, in slot order. -/
def oa_iter_list (t : OATable K V) : List (K × V) :=
  t.slots.filterMap
    (fun sl =>
      match sl.key, sl.val with
      | Option.some k, Option.some v => Option.some (k, v)
      | _, _ => Option.none)

/-- Whether slot `s` is occupied (its key is non-NULL). -/
def oa_occupied (t : OATable K V) (s : Nat) : Bool := (oa_slotAt t s).key.isSome

/-- The key stored at slot `s` (meaningful when the slot is occupied). -/
def oa_key_at [Inhabited K] (t : OATable K V) (s : Nat) : K :=
  ((oa_slotAt t s).key).getD default

/-- The table invariant, maintained by every operation on a fresh table:
the slot list realizes the capacity; the capacity is a power of two (so the
`& (size - 1)` masks are `% size`); the table is at most half full; the
member count counts the occupied slots; every key occupies at most one
slot; and every occupied slot is reachable: it lies on its key's probe
sequence with every earlier probe position occupied. -/
abbrev OAInv [DecidableEq K] [Inhabited K] (hashF : K → Nat) (off : Nat → Nat)
    (t : OATable K V) : Prop :=
  t.slots.length = t.size
  ∧ oa_pow2 t.size = true
  ∧ 2 * t.members ≤ t.size
  ∧ t.members = t.slots.countP (fun sl => sl.key.isSome)
  ∧ (∀ s1, s1 < t.size → ∀ s2, s2 < t.size →
      (oa_slotAt t s1).key.isSome = true →
      (oa_slotAt t s1).key = (oa_slotAt t s2).key → s1 = s2)
  ∧ (∀ s, s < t.size → (oa_slotAt t s).key.isSome = true →
      ∃ j, j < t.size ∧ oa_pos hashF off t.size (oa_key_at t s) j = s ∧
        ∀ i, i < j → oa_occupied t (oa_pos hashF off t.size (oa_key_at t s) i) = true)

/-- Probe offsets that are injective modulo every power of two; linear
probing (`id`) and the quadratic triangular offsets (`tri`) both are, which
makes the first `size` probes visit every slot. -/
def off_inj_mod (off : Nat → Nat) : Prop :=
  ∀ m i j, i < 2 ^ m → j < 2 ^ m → off i % 2 ^ m = off j % 2 ^ m → i = j

/-! ### The three instances -/

/-- `hash_put` from src/hash.c (pointer keys as addresses, quadratic
probing over `mix_bits_64`). -/
def hash_put (t : OATable Nat V) (k : Nat) (v : Option V) : OATable Nat V × Bool :=
  oa_put mix_bits_64 tri t k v

/-- `hash_get` from src/hash.c. -/
def hash_get (t : OATable Nat V) (k : Nat) : Option V :=
  oa_get mix_bits_64 tri t k

/-- `hash_delete` from src/hash.c. -/
def hash_delete (t : OATable Nat V) (k : Nat) : OATable Nat V :=
  oa_delete mix_bits_64 tri t k

/-- `hash_members` from src/hash.c. -/
def hash_members (t : OATable Nat V) : Nat := t.members

/-- The sequence `hash_iter` yields. -/
def hash_iter_list (t : OATable Nat V) : List (Nat × V) := oa_iter_list t

/-- The DJB2 string hash of `shash_slot` (strings as NUL-free byte lists;
32-bit accumulator). -/
def djb2 (s : List Nat) : Nat :=
  s.foldl (fun h c => (h * 33 + c) % 2 ^ 32) 5381

/-- Modelled from the spec: `mix_bits_32` from util.h, a 32-bit finalizer
re-mixing the DJB2 hash before masking. -/
def mix_bits_32 (x : Nat) : Nat :=
  let x1 := ((x ^^^ (x >>> 16)) * 0x45d9f3b) % 2 ^ 32
  let x2 := ((x1 ^^^ (x1 >>> 16)) * 0x45d9f3b) % 2 ^ 32
  (x2 ^^^ (x2 >>> 16)) % 2 ^ 32

/-- The raw hash of `shash_slot`. -/
def shash_hash (s : List Nat) : Nat := mix_bits_32 (djb2 s)

/-- `shash_put` from src/hash.c (via `shash_put_copy`; the key is copied
with `xstrdup`, hence by-value keys here). -/
def shash_put (t : OATable (List Nat) V) (k : List Nat) (v : Option V) :
    OATable (List Nat) V × Bool :=
  oa_put shash_hash id t k v

/-- `shash_get` from src/hash.c. -/
def shash_get (t : OATable (List Nat) V) (k : List Nat) : Option V :=
  oa_get shash_hash id t k

/-- The SplitMix64 mixing of `ihash_slot` from src/hash.c. -/
def ihash_mix (key : Nat) : Nat :=
  let k1 := (key ^^^ (key >>> 30)) * 0xbf58476d1ce4e5b9 % 2 ^ 64
  let k2 := (k1 ^^^ (k1 >>> 27)) * 0x94d049bb133111eb % 2 ^ 64
  (k2 ^^^ (k2 >>> 31)) % 2 ^ 64

/-- An `ihash_t`: the open-addressed table (the occupancy bitmap is the
`Option` key) plus the single-entry lookup cache. -/
structure IHash (V : Type) where
  tab : OATable Nat V
  cachekey : Nat
  cacheval : Option V
  deriving DecidableEq

/-- `ihash_put` from src/hash.c: update the cache with the new binding and
store it in the table (rehashing at load ½ like the others). -/
def ihash_put (h : IHash V) (k : Nat) (v : Option V) : IHash V :=
  { tab := (oa_put ihash_mix id h.tab k v).1, cachekey := k, cacheval := v }

/-- `ihash_get` from src/hash.c: serve from the cache when the table is
non-empty and the key matches the cached key; otherwise probe and cache the
result.  Returns the value and the updated state (the C function mutates
the cache). -/
def ihash_get (h : IHash V) (k : Nat) : Option V × IHash V :=
  if 0 < h.tab.members ∧ k = h.cachekey then (h.cacheval, h)
  else
    let r := oa_get ihash_mix id h.tab k
    (r, { h with cachekey := k, cacheval := r })

/-- The `ihash_t` invariant: the table invariant plus cache coherence
(when the table is non-empty, the cached value is what a probe for the
cached key returns). -/
abbrev IHInv (h : IHash V) : Prop :=
  OAInv ihash_mix id h.tab
  ∧ (0 < h.tab.members → h.cacheval = oa_get ihash_mix id h.tab h.cachekey)

/-! ## Statement-support definitions -/

/-- The convertibility rule as claim C3 words it: the source is a universal
integer or universal real, the destination is non-universal, and the
families match (integer to integer, or real to real). -/
abbrev convertible_claim (f t : VType) : Prop :=
  type_is_universal f = true ∧ type_is_universal t = false
    ∧ ((type_base_kind f = .T_INTEGER ∧ type_base_kind t = .T_INTEGER)
        ∨ (type_base_kind f = .T_REAL ∧ type_base_kind t = .T_REAL))

mutual

/-- Types containing no T_SUBTYPE and no T_CARRAY node, and no designated
(access) type, in any position the equality functions compare (element,
result, parameters). -/
def plain_type : VType → Bool
  | .mk k _ _ _ e _ p r x _ _ =>
    k ≠ .T_SUBTYPE && k ≠ .T_CARRAY
      && plain_typeO e && plain_typeO r && x = VTypeO.none && plain_typeL p

/-- `plain_type` on an optional type. -/
def plain_typeO : VTypeO → Bool
  | .none => true
  | .some t => plain_type t

/-- `plain_type` on a type list. -/
def plain_typeL : VTypeL → Bool
  | .nil => true
  | .cons hd tl => plain_type hd && plain_typeL tl

end

/-- A sample integer type (range 0 to 100). -/
def t_int : VType :=
  .mk .T_INTEGER (Option.some 1) .none [⟨Option.some (0, 100)⟩] .none .nil .nil
    .none .none .nil Option.none

/-- A sample integer type with the same ident as `t_int` but a different
range (range 0 to 50), so it is strictly equal to `t_int` without being the
same object. -/
def t_int50 : VType :=
  .mk .T_INTEGER (Option.some 1) .none [⟨Option.some (0, 50)⟩] .none .nil .nil
    .none .none .nil Option.none

/-- A sample real type. -/
def t_real : VType :=
  .mk .T_REAL (Option.some 2) .none [⟨Option.some (0, 1)⟩] .none .nil .nil
    .none .none .nil Option.none

/-- An anonymous subtype of `t_int` (no ident, no constraint). -/
def t_sub_int : VType :=
  .mk .T_SUBTYPE Option.none (.some t_int) [] .none .nil .nil .none .none .nil
    Option.none

/-- An anonymous subtype of `t_real` (no ident, no constraint). -/
def t_sub_real : VType :=
  .mk .T_SUBTYPE Option.none (.some t_real) [] .none .nil .nil .none .none .nil
    Option.none

/-- A T_NONE type (the error type). -/
def t_none : VType :=
  .mk .T_NONE Option.none .none [] .none .nil .nil .none .none .nil Option.none

/-- A sample unconstrained array of `t_int` with one index constraint. -/
def t_uarray : VType :=
  .mk .T_UARRAY (Option.some 3) .none [] (.some t_int) .nil .nil .none .none
    (.cons t_int .nil) Option.none

/-! ## Theorems -/

/-- Universal types have their own kind T_INTEGER or T_REAL, which is also
their base kind. -/
theorem type_is_universal_base_kind (f : VType) (h : type_is_universal f = true) :
    (type_base_kind f = .T_INTEGER ∨ type_base_kind f = .T_REAL)
      ∧ type_base_kind f = f.kind := by
  obtain ⟨k, i, b, d, e, fs, p, r, x, ic, c⟩ := f
  cases k <;> simp_all [type_is_universal, type_base_kind, VType.kind]

/-- C3 counterexample: at `from = t_none`, `to = t_int` the code returns
true (the T_NONE cascade-suppression branch) although `t_none` is not a
universal type, so "returns true exactly when from is a universal
integer or universal real ..." is false at this pair. -/
theorem c3_counterexample :
    type_is_convertible t_none t_int = true ∧ ¬ convertible_claim t_none t_int := by
  decide

/-- C3 (amended): `type_is_convertible(from, to)` returns true exactly when
the base kind of `from` is T_NONE (suppressing cascading errors), or `from`
is a universal integer/real and `to` is a non-universal type of the same
family. -/
theorem type_is_convertible_characterization (f t : VType) :
    type_is_convertible f t = true ↔
      (type_base_kind f = .T_NONE ∨ convertible_claim f t) := by
  unfold type_is_convertible
  by_cases h1 : type_base_kind f = .T_NONE
  · simp [h1]
  · simp only [h1, if_false, false_or]
    by_cases h2 : type_is_universal f = true
    · have hfk := type_is_universal_base_kind f h2
      by_cases h3 : type_is_universal t = true
      · simp [h2, h3, convertible_claim]
      · rcases hfk.1 with hk | hk <;>
          by_cases h4 : type_base_kind t = .T_INTEGER <;>
          by_cases h5 : type_base_kind t = .T_REAL <;>
          simp_all [convertible_claim, Bool.not_eq_true]
    · have h2f : type_is_universal f = false := by
        cases hx : type_is_universal f
        · rfl
        · exact absurd hx h2
      simp [h2f, convertible_claim]

/-- C3 witness: the amended characterization at the concrete pair
(universal integer, t_int). -/
theorem type_is_convertible_characterization_witness :
    type_is_convertible
        (.mk .T_INTEGER (Option.some universal_integer_id) .none
          [⟨Option.some (0, 1)⟩] .none .nil .nil .none .none .nil Option.none)
        t_int = true := by
  exact (type_is_convertible_characterization _ t_int).mpr (by decide)

/-- C2 counterexample: two anonymous subtypes, one of an integer type and
one of a real type.  `type_strict_eq` compares no structural item of a
T_SUBTYPE (its has-map has neither I_ELEM nor I_DIMS nor I_PTYPES) and both
lack an ident, so it returns true; `type_eq` reduces both to their bases,
whose kinds differ, and returns false.  So `type_strict_eq` does not imply
`type_eq`. -/
theorem c2_counterexample :
    type_strict_eq t_sub_int t_sub_real = true
      ∧ type_eq t_sub_int t_sub_real = false := by
  decide

/-- Folding `run_hint` over a hint list: each hint adds one emission, and in
unit-test mode one error count; the hint queue and option fields are
untouched by the fold itself. -/
theorem run_hint_foldl (hs : List Hint) : ∀ st : DiagState,
    (hs.foldl run_hint st).n_errors
        = st.n_errors + (if st.unit_test then hs.length else 0)
    ∧ (hs.foldl run_hint st).out
        = st.out ++ hs.map (fun h =>
            if st.unit_test then DiagOut.errorOut h.msg h.loc
            else DiagOut.noteOut h.msg h.loc)
    ∧ (hs.foldl run_hint st).hints = st.hints
    ∧ (hs.foldl run_hint st).unit_test = st.unit_test := by
  induction hs with
  | nil => intro st; simp
  | cons h rest ih =>
    intro st
    have := ih (run_hint st h)
    by_cases hu : st.unit_test <;>
      simp_all [run_hint] <;> omega

/-- C7 counterexample: with the unit-test option set and one queued hint,
`error_at` increments the error count by two, not one — the flushed hint
goes through `note_at`, which also increments `n_errors` in unit-test
mode. -/
theorem c7_counterexample :
    error_count (error_at ⟨0, [⟨1, 2⟩], true, []⟩ 5 6) = 2 := by decide

/-- C7 (amended): every call to `error_at` invokes the installed error
callback (never terminating the process), flushes the entire queued hint
chain so the hint queue is empty on return, and increments the error count
by exactly one plus — when the unit-test option is set — one more per
flushed hint. -/
theorem error_at_spec (st : DiagState) (loc msg : Nat) :
    (error_at st loc msg).hints = []
    ∧ error_count (error_at st loc msg)
        = st.n_errors + 1 + (if st.unit_test then st.hints.length else 0)
    ∧ (error_at st loc msg).out
        = st.out ++ [.errorOut msg loc]
            ++ st.hints.map (fun h =>
                if st.unit_test then DiagOut.errorOut h.msg h.loc
                else DiagOut.noteOut h.msg h.loc) := by
  obtain ⟨h1, h2, h3, h4⟩ :=
    run_hint_foldl st.hints { st with out := st.out ++ [.errorOut msg loc] }
  unfold error_at show_hint error_count
  refine ⟨rfl, ?_, ?_⟩
  · simp only [h1]; omega
  · simp only [h2]

/-- One callback appends the value record and, exactly when `now` differs
from `last_time`, a single time record before it. -/
theorem vcd_cb_times (st : VcdState) (now d : Nat) :
    vcd_times (vcd_event_cb st now d).out
      = vcd_times st.out ++ (if now = st.last_time then [] else [now]) := by
  by_cases h : now = st.last_time <;>
    simp [vcd_event_cb, h, vcd_times, List.filterMap_append]

/-- After any callback `last_time` equals that callback's time (it is
updated on emission, and without emission it already was the time). -/
theorem vcd_cb_last (st : VcdState) (now d : Nat) :
    (vcd_event_cb st now d).last_time = now := by
  by_cases h : now = st.last_time <;> simp [vcd_event_cb, h]

/-- `last_time` after a run is the last callback time (or the initial value
when no callback happened). -/
theorem vcd_run_last (evs : List (Nat × Nat)) : ∀ st : VcdState,
    (vcd_run st evs).last_time = (evs.map Prod.fst).getLastD st.last_time := by
  induction evs with
  | nil => intro st; simp [vcd_run]
  | cons e rest ih =>
    intro st
    have h1 : vcd_run st (e :: rest) = vcd_run (vcd_event_cb st e.1 e.2) rest := by
      simp [vcd_run]
    rw [h1, ih, List.map_cons, List.getLastD_cons, vcd_cb_last]

/-- Invariant run lemma for the unconditional part of C8: consecutive time
records always differ, and the last time record (if any) equals
`last_time`. -/
theorem vcd_run_chain_ne (evs : List (Nat × Nat)) : ∀ st : VcdState,
    (vcd_times st.out).Chain' (· ≠ ·) →
    (vcd_times st.out = [] ∨ (vcd_times st.out).getLast? = Option.some st.last_time) →
    (vcd_times (vcd_run st evs).out).Chain' (· ≠ ·)
    ∧ (vcd_times (vcd_run st evs).out = []
        ∨ (vcd_times (vcd_run st evs).out).getLast?
            = Option.some (vcd_run st evs).last_time) := by
  induction evs with
  | nil => intro st h1 h2; exact ⟨h1, h2⟩
  | cons e rest ih =>
    intro st h1 h2
    have hrun : vcd_run st (e :: rest) = vcd_run (vcd_event_cb st e.1 e.2) rest := by
      simp [vcd_run]
    rw [hrun]
    by_cases h : e.1 = st.last_time
    · refine ih _ ?_ ?_
      · rw [vcd_cb_times]; simp [h, h1]
      · rw [vcd_cb_times, vcd_cb_last]; simp [h]
        rcases h2 with h2 | h2
        · exact Or.inl h2
        · exact Or.inr (h ▸ h2)
    · refine ih _ ?_ ?_
      · rw [vcd_cb_times]; simp only [h, if_neg, ite_false]
        rw [List.chain'_append]
        refine ⟨h1, List.chain'_singleton _, ?_⟩
        intro x hx y hy
        rcases h2 with h2 | h2
        · simp [h2] at hx
        · simp [h2] at hx
          simp at hy
          subst hx; subst hy
          exact fun hc => h hc.symm
      · rw [vcd_cb_times, vcd_cb_last]
        simp [h]

/-- Invariant run lemma for the monotone part of C8: with nondecreasing
callback times the recorded times are strictly increasing. -/
theorem vcd_run_sorted (evs : List (Nat × Nat)) : ∀ st : VcdState,
    (evs.map Prod.fst).Sorted (· ≤ ·) →
    (vcd_times st.out).Sorted (· < ·) →
    (vcd_times st.out = []
      ∨ ((∀ x ∈ vcd_times st.out, x ≤ st.last_time)
          ∧ (∀ e ∈ evs, st.last_time ≤ e.1))) →
    (vcd_times (vcd_run st evs).out).Sorted (· < ·) := by
  induction evs with
  | nil => intro st _ h2 _; exact h2
  | cons e rest ih =>
    intro st hsort h2 h3
    have hrun : vcd_run st (e :: rest) = vcd_run (vcd_event_cb st e.1 e.2) rest := by
      simp [vcd_run]
    rw [hrun]
    rw [List.map_cons, List.sorted_cons] at hsort
    have hrest : ∀ y ∈ rest, e.1 ≤ y.1 := by
      intro y hy; exact hsort.1 y.1 (List.mem_map_of_mem Prod.fst hy)
    by_cases h : e.1 = st.last_time
    · refine ih _ hsort.2 ?_ ?_
      · rw [vcd_cb_times]; simp [h, h2]
      · rw [vcd_cb_times, vcd_cb_last]; simp only [h, ite_true, List.append_nil]
        rcases h3 with h3 | h3
        · exact Or.inl h3
        · exact Or.inr ⟨h ▸ h3.1, fun y hy => h ▸ hrest y hy⟩
    · refine ih _ hsort.2 ?_ ?_
      · rw [vcd_cb_times]; simp only [h, ite_false]
        rw [List.Sorted, List.pairwise_append]
        refine ⟨h2, List.pairwise_singleton _ _, ?_⟩
        intro x hx y hy
        simp at hy; subst hy
        rcases h3 with h3 | h3
        · simp [h3] at hx
        · have hx1 := h3.1 x hx
          have hx2 : st.last_time ≤ e.1 := h3.2 e (by simp)
          omega
      · rw [vcd_cb_times, vcd_cb_last]
        refine Or.inr ⟨?_, fun y hy => hrest y hy⟩
        intro x hx
        simp only [h, ite_false] at hx
        rw [List.mem_append] at hx
        rcases hx with hx | hx
        · rcases h3 with h3 | h3
          · simp [h3] at hx
          · have := h3.1 x hx
            have : st.last_time ≤ e.1 := h3.2 e (by simp)
            omega
        · simp at hx; omega

/-- C8: the VCD sink writes a time record on a callback exactly when the
callback time differs from the previous callback's time (initially
UINT64_MAX), so it never writes two consecutive `#<time>` records with the
same time; and when the kernel delivers callbacks with nondecreasing times,
the recorded timestamps are strictly increasing, hence each distinct time
stamp is recorded at most once. -/
theorem vcd_event_cb_times_spec (events : List (Nat × Nat)) :
    (vcd_times (vcd_run vcd_init_state events).out).Chain' (· ≠ ·)
    ∧ (∀ now decl,
        vcd_times (vcd_event_cb (vcd_run vcd_init_state events) now decl).out
          = vcd_times (vcd_run vcd_init_state events).out
              ++ (if now = (events.map Prod.fst).getLastD UINT64_MAX then [] else [now]))
    ∧ ((events.map Prod.fst).Sorted (· ≤ ·) →
        (vcd_times (vcd_run vcd_init_state events).out).Sorted (· < ·)
        ∧ (vcd_times (vcd_run vcd_init_state events).out).Nodup) := by
  have hinit1 : vcd_times vcd_init_state.out = [] := by simp [vcd_init_state, vcd_times]
  refine ⟨?_, ?_, ?_⟩
  · exact (vcd_run_chain_ne events vcd_init_state (by simp [hinit1]) (Or.inl hinit1)).1
  · intro now decl
    rw [vcd_cb_times, vcd_run_last]
    simp [vcd_init_state]
  · intro hs
    have hsorted := vcd_run_sorted events vcd_init_state hs (by simp [hinit1]) (Or.inl hinit1)
    exact ⟨hsorted, hsorted.nodup⟩

/-- C8 witness: the theorem at the concrete event trace
[(3, 0), (3, 1), (5, 0)], whose sorted hypothesis is discharged by
decide: exactly the two time records 3 and 5 are written. -/
theorem vcd_event_cb_times_spec_witness :
    (vcd_times (vcd_run vcd_init_state [(3, 0), (3, 1), (5, 0)]).out).Sorted (· < ·)
    ∧ (vcd_times (vcd_run vcd_init_state [(3, 0), (3, 1), (5, 0)]).out).Nodup := by
  exact (vcd_event_cb_times_spec [(3, 0), (3, 1), (5, 0)]).2.2 (by decide)

/-- Fold lemma for `vlog_simp`: every produced net declaration either was in
the accumulator or has a NULL value; wire declarations appended for ports
carry no value; the statement list only grows by an appended suffix whose
generated assignment counters are fresh (at least the starting counter,
below the final counter) and strictly increasing; and every initialized net
declaration of the input contributes an assignment carrying its value to
that suffix. -/
theorem vlog_simp_foldl (decls : List VlDecl) : ∀ (ds extra : List VlDecl)
    (ss : List VlStmt) (c : Nat),
    let r := decls.foldl vlog_simp_step (ds, extra, ss, c)
    (∀ k id v, VlDecl.netDecl k id v ∈ r.1 →
        (VlDecl.netDecl k id v ∈ ds ∨ v = Option.none))
    ∧ (∀ d ∈ r.2.1, d ∈ extra ∨ ∃ id, d = VlDecl.netDecl .V_NET_WIRE id Option.none)
    ∧ c ≤ r.2.2.2
    ∧ (∃ app, r.2.2.1 = ss ++ app
        ∧ (∀ n ∈ app.filterMap assign_counter, c ≤ n ∧ n < r.2.2.2)
        ∧ (app.filterMap assign_counter).Sorted (· < ·)
        ∧ (∀ k id v, VlDecl.netDecl k id (Option.some v) ∈ decls →
            ∃ n, c ≤ n ∧ VlStmt.assign (.assigned id n) id v ∈ app)) := by
  induction decls with
  | nil =>
    intro ds extra ss c
    exact ⟨fun k id v h => Or.inl h, fun d h => Or.inl h, le_refl c,
      ⟨[], by simp, by simp, by simp, by simp⟩⟩
  | cons d rest ih =>
    intro ds extra ss c
    match d with
    | .portDecl id hasRef =>
      have heq : rest.foldl vlog_simp_step (vlog_simp_step (ds, extra, ss, c) (.portDecl id hasRef))
          = rest.foldl vlog_simp_step
              (ds ++ [.portDecl id true], extra ++ (simp_port_decl id hasRef).2, ss, c) := by
        simp [vlog_simp_step, simp_port_decl]
        by_cases h : hasRef <;> simp [h]
      obtain ⟨p1, p2, p4, app, ha1, ha2, ha3, ha5⟩ :=
        ih (ds ++ [.portDecl id true]) (extra ++ (simp_port_decl id hasRef).2) ss c
      simp only [List.foldl_cons, heq]
      refine ⟨?_, ?_, p4, app, ha1, ha2, ha3, ?_⟩
      · intro k id2 v h
        rcases p1 k id2 v h with h | h
        · rw [List.mem_append] at h
          rcases h with h | h
          · exact Or.inl h
          · simp at h
        · exact Or.inr h
      · intro d2 h
        rcases p2 d2 h with h | h
        · rw [List.mem_append] at h
          rcases h with h | h
          · exact Or.inl h
          · right
            unfold simp_port_decl at h
            by_cases hr : hasRef <;> simp [hr] at h
            exact ⟨id, h⟩
        · exact Or.inr h
      · intro k id2 v h
        simp only [List.mem_cons] at h
        rcases h with h | h
        · cases h
        · exact ha5 k id2 v h
    | .netDecl k id Option.none =>
      have heq : vlog_simp_step (ds, extra, ss, c) (.netDecl k id Option.none)
          = (ds ++ [.netDecl k id Option.none], extra,
             (simp_net_decl k id Option.none ss c).2.1, c) := by
        simp [vlog_simp_step, simp_net_decl]
      obtain ⟨gates, hg1, hg2⟩ : ∃ gates,
          (simp_net_decl k id Option.none ss c).2.1 = ss ++ gates
          ∧ gates.filterMap assign_counter = [] := by
        unfold simp_net_decl
        match k with
        | .V_NET_WIRE => exact ⟨[], by simp⟩
        | .V_NET_SUPPLY0 =>
            exact ⟨[.gateInst .V_GATE_PULLDOWN (.pulled id) id], by simp [assign_counter]⟩
        | .V_NET_SUPPLY1 =>
            exact ⟨[.gateInst .V_GATE_PULLUP (.pulled id) id], by simp [assign_counter]⟩
      obtain ⟨p1, p2, p4, app, ha1, ha2, ha3, ha5⟩ :=
        ih (ds ++ [.netDecl k id Option.none]) extra (ss ++ gates) c
      simp only [List.foldl_cons, heq, hg1]
      refine ⟨?_, p2, p4, gates ++ app, ?_, ?_, ?_, ?_⟩
      · intro k2 id2 v h
        rcases p1 k2 id2 v h with h | h
        · rw [List.mem_append] at h
          rcases h with h | h
          · exact Or.inl h
          · simp at h
            exact Or.inr h.2.2
        · exact Or.inr h
      · rw [← List.append_assoc]; exact ha1
      · simpa [List.filterMap_append, hg2] using ha2
      · simpa [List.filterMap_append, hg2] using ha3
      · intro k2 id2 v h
        simp only [List.mem_cons] at h
        rcases h with h | h
        · cases h
        · obtain ⟨n, hn1, hn2⟩ := ha5 k2 id2 v h
          exact ⟨n, hn1, by simp [hn2]⟩
    | .netDecl k id (Option.some v) =>
      have heq : vlog_simp_step (ds, extra, ss, c) (.netDecl k id (Option.some v))
          = (ds ++ [.netDecl k id Option.none], extra,
             (simp_net_decl k id (Option.some v) ss c).2.1, c + 1) := by
        simp [vlog_simp_step, simp_net_decl]
      obtain ⟨gates, hg1, hg2⟩ : ∃ gates,
          (simp_net_decl k id (Option.some v) ss c).2.1
            = ss ++ (gates ++ [.assign (.assigned id c) id v])
          ∧ gates.filterMap assign_counter = [] := by
        unfold simp_net_decl
        match k with
        | .V_NET_WIRE => exact ⟨[], by simp⟩
        | .V_NET_SUPPLY0 =>
            exact ⟨[.gateInst .V_GATE_PULLDOWN (.pulled id) id], by simp [assign_counter]⟩
        | .V_NET_SUPPLY1 =>
            exact ⟨[.gateInst .V_GATE_PULLUP (.pulled id) id], by simp [assign_counter]⟩
      obtain ⟨p1, p2, p4, app, ha1, ha2, ha3, ha5⟩ :=
        ih (ds ++ [.netDecl k id Option.none]) extra
          (ss ++ (gates ++ [.assign (.assigned id c) id v])) (c + 1)
      simp only [List.foldl_cons, heq, hg1]
      refine ⟨?_, p2, by omega, gates ++ [.assign (.assigned id c) id v] ++ app, ?_, ?_, ?_, ?_⟩
      · intro k2 id2 v2 h
        rcases p1 k2 id2 v2 h with h | h
        · rw [List.mem_append] at h
          rcases h with h | h
          · exact Or.inl h
          · simp at h
            exact Or.inr h.2.2
        · exact Or.inr h
      · rw [ha1]; simp
      · intro n hn
        simp [List.filterMap_append, hg2, assign_counter] at hn
        rcases hn with hn | hn
        · subst hn
          omega
        · have := ha2 n (by simpa using hn)
          omega
      · simp only [List.append_assoc, List.filterMap_append, hg2, List.nil_append]
        simp only [assign_counter, List.filterMap_cons, List.filterMap_nil]
        rw [List.Sorted, List.pairwise_append]
        refine ⟨List.pairwise_singleton _ _, ha3, ?_⟩
        intro x hx y hy
        simp at hx
        subst hx
        have := ha2 y (by simpa using hy)
        omega
      · intro k2 id2 v2 h
        simp only [List.mem_cons] at h
        rcases h with h | h
        · injection h with h1 h2 h3
          subst h2
          injection h3 with h3
          subst h3
          exact ⟨c, le_refl c, by simp⟩
        · obtain ⟨n, hn1, hn2⟩ := ha5 k2 id2 v2 h
          exact ⟨n, by omega, by simp [hn2]⟩

/-- C10: after `vlog_simp` no net declaration in the module retains an
initializer; every initializer of the input module has been moved into a
continuous assignment appended to the module statements, targeting the
declaration's name and carrying a fresh uniquely named `__assign#`-derived
ident (the generated counters are pairwise distinct and at least the
starting counter of the run). -/
theorem vlog_simp_spec (m : VlModule) (c0 : Nat) :
    (∀ k id v, VlDecl.netDecl k id v ∈ (vlog_simp m c0).1.decls → v = Option.none)
    ∧ (∃ app, (vlog_simp m c0).1.stmts = m.stmts ++ app
        ∧ (app.filterMap assign_counter).Sorted (· < ·)
        ∧ (∀ n ∈ app.filterMap assign_counter, c0 ≤ n)
        ∧ (∀ k id v, VlDecl.netDecl k id (Option.some v) ∈ m.decls →
            ∃ n, c0 ≤ n ∧ VlStmt.assign (.assigned id n) id v ∈ app)) := by
  obtain ⟨p1, p2, p4, app, ha1, ha2, ha3, ha5⟩ :=
    vlog_simp_foldl m.decls [] [] m.stmts c0
  constructor
  · intro k id v h
    simp only [vlog_simp, List.mem_append] at h
    rcases h with h | h
    · rcases p1 k id v h with h | h
      · simp at h
      · exact h
    · rcases p2 _ h with h | h
      · simp at h
      · obtain ⟨id2, h⟩ := h
        simp_all
  · exact ⟨app, by simpa [vlog_simp] using ha1, ha3,
      fun n hn => (ha2 n hn).1, ha5⟩

/-- C10 witness: in a module with one initialized wire declaration, the
simplified module contains the declaration with its value cleared, and the
theorem instantiates on that membership. -/
theorem vlog_simp_spec_witness :
    VlDecl.netDecl .V_NET_WIRE (.plain 1) Option.none
        ∈ (vlog_simp
            { decls := [.netDecl .V_NET_WIRE (.plain 1) (Option.some ⟨5⟩)],
              stmts := [] } 0).1.decls
    ∧ (Option.none : Option VlExpr) = Option.none :=
  ⟨by decide,
   (vlog_simp_spec
      { decls := [.netDecl .V_NET_WIRE (.plain 1) (Option.some ⟨5⟩)], stmts := [] }
      0).1 .V_NET_WIRE (.plain 1) Option.none (by decide)⟩

/-- The chain walk of `chash_put` on a chain without the key appends the new
node at the tail. -/
theorem chash_chain_put_fresh {V : Type} (k : Nat) (v : V) :
    ∀ chain : List (Nat × V), (∀ n ∈ chain, n.1 ≠ k) →
      chash_chain_put chain k v = (chain ++ [(k, v)], false) := by
  intro chain
  induction chain with
  | nil => intro _; simp [chash_chain_put]
  | cons n rest ih =>
    intro hfresh
    have hne : n.1 ≠ k := hfresh n (by simp)
    simp only [chash_chain_put, if_neg hne]
    rw [ih (fun m hm => hfresh m (by simp [hm]))]
    rfl

/-- Lookup in the chain produced by the chain walk: the written key now maps
to the new value, every other key is unaffected. -/
theorem chash_chain_put_lookup {V : Type} (k : Nat) (v : V) (k' : Nat) :
    ∀ chain : List (Nat × V),
      (((chash_chain_put chain k v).1.find? (fun n => n.1 = k')).map Prod.snd)
        = if k' = k then Option.some v
          else ((chain.find? (fun n => n.1 = k')).map Prod.snd) := by
  intro chain
  induction chain with
  | nil =>
    by_cases h : k' = k
    · subst h; simp [chash_chain_put, List.find?]
    · have hkk : ¬ (k = k') := fun hc => h hc.symm
      simp [chash_chain_put, List.find?, h, hkk]
  | cons n rest ih =>
    by_cases h1 : n.1 = k
    · simp only [chash_chain_put, if_pos h1]
      by_cases h2 : k' = k
      · subst h2
        simp [List.find?_cons, h1]
      · have hh : ¬ (n.1 = k') := fun hc => h2 (by rw [← hc, h1])
        simp [List.find?_cons, hh, h2]
    · simp only [chash_chain_put, if_neg h1]
      by_cases h2 : n.1 = k'
      · have hk : ¬ (k' = k) := fun hc => h1 (by rw [h2, hc])
        simp [List.find?_cons, h2, hk]
      · have hd : (decide (n.1 = k')) = false := decide_eq_false h2
        simp only [List.find?_cons, hd]
        exact ih

/-- C5 counterexample: a size-1 table holding key 3; inserting key 4 makes
the new node the TAIL of the chain ([(3,5),(4,6)]), not the head the claim
describes ([(4,6),(3,5)]) — the CAS of `chash_put` installs the node at the
NULL chain pointer reached after walking past every existing node. -/
theorem c5_counterexample :
    ((chash_put ((chash_put (chash_new Nat 1) 3 5).1) 4 6).1).slots = [[(3, 5), (4, 6)]]
    ∧ ((chash_put_head_claim ((chash_put (chash_new Nat 1) 3 5).1) 4 6).1).slots
        = [[(4, 6), (3, 5)]] := by decide

/-- C5 (amended): `chash_put` inserts a new key by installing the newly
allocated node at the TAIL of its slot's chain, via a compare-and-swap on
the chain pointer its walk stopped at; an existing key has its value
overwritten in place; and the table is never resized — the capacity and
slot count are unchanged by every put, and lookups after a put see the new
binding and no other change. -/
theorem chash_put_spec {V : Type} (h : CHash V) (k : Nat) (v : V)
    (hlen : h.slots.length = h.size) (hpos : 0 < h.size) :
    ((chash_put h k v).1.size = h.size)
    ∧ ((chash_put h k v).1.slots.length = h.slots.length)
    ∧ (∀ k', chash_get (chash_put h k v).1 k'
        = if k' = k then Option.some v else chash_get h k')
    ∧ ((∀ n ∈ h.slots.getD (hash_slot h.size k) [], n.1 ≠ k) →
        (chash_put h k v).1.slots.getD (hash_slot h.size k) []
          = h.slots.getD (hash_slot h.size k) [] ++ [(k, v)]) := by
  have hslot : hash_slot h.size k < h.slots.length := by
    rw [hlen]
    calc hash_slot h.size k ≤ h.size - 1 := Nat.and_le_right
    _ < h.size := by omega
  refine ⟨rfl, by simp [chash_put], ?_, ?_⟩
  · intro k'
    by_cases hs : hash_slot h.size k' = hash_slot h.size k
    · simp only [chash_get, chash_put, hs]
      rw [List.getD_eq_getElem?_getD, List.getElem?_set_eq_of_lt _ hslot,
          Option.getD_some]
      exact chash_chain_put_lookup k v k' _
    · simp only [chash_get, chash_put]
      rw [List.getD_eq_getElem?_getD, List.getElem?_set_ne (fun hc => hs hc.symm),
          ← List.getD_eq_getElem?_getD]
      have hkk : k' ≠ k := by
        intro hc; subst hc; exact hs rfl
      rw [if_neg hkk]
  · intro hfresh
    simp only [chash_put]
    rw [List.getD_eq_getElem?_getD, List.getElem?_set_eq_of_lt _ hslot,
        Option.getD_some, (chash_chain_put_fresh k v _ hfresh)]

/-- C5 witness: the amended theorem applied to the concrete size-1 table
holding key 3, inserting key 4. -/
theorem chash_put_spec_witness :
    chash_get (chash_put ((chash_put (chash_new Nat 1) 3 5).1) 4 6).1 3 = Option.some 5 := by
  have hmain := chash_put_spec ((chash_put (chash_new Nat 1) 3 5).1) 4 6 (by decide) (by decide)
  rw [(hmain.2.2.1 3)]
  decide

/-- A non-subtype is its own `type_base_recur`. -/
theorem type_base_recur_eq_self (t : VType) (h : t.kind ≠ .T_SUBTYPE) :
    type_base_recur t = t := by
  obtain ⟨k, i, b, d, e, f, p, r, x, ic, c⟩ := t
  cases k
  case T_SUBTYPE => exact absurd rfl h
  all_goals cases b <;> rfl

/-- A kind with an I_ELEM item that is not T_CARRAY is T_UARRAY. -/
theorem elem_kind_not_carray (k : TypeKind) (h1 : has_elem_item k = true)
    (h2 : k ≠ TypeKind.T_CARRAY) : k = TypeKind.T_UARRAY := by
  cases k
  all_goals first
    | rfl
    | exact absurd rfl h2
    | exact Bool.noConfusion h1

/-- The parameter loop preserves a pointwise strict-to-liberal implication. -/
theorem type_eq_list_go_imp (f : VType → VType → Bool) (bound : Nat)
    (hf : ∀ x y : VType, x.msize + y.msize ≤ bound → plain_type x = true →
      plain_type y = true → type_strict_eq x y = true → f x y = true) :
    ∀ xs ys : VTypeL, xs.msize + ys.msize ≤ bound → plain_typeL xs = true →
      plain_typeL ys = true → type_strict_eq_list xs ys = true →
      type_eq_list_go f xs ys = true
  | .nil, _ => fun _ _ _ _ => rfl
  | .cons _ _, .nil => fun _ _ _ _ => rfl
  | .cons x xs1, .cons y ys1 => fun hsize hpx hpy h => by
      simp only [type_strict_eq_list, Bool.and_eq_true] at h
      simp only [plain_typeL, Bool.and_eq_true] at hpx hpy
      simp only [type_eq_list_go, Bool.and_eq_true]
      refine ⟨hf x y ?_ hpx.1 hpy.1 h.1,
        type_eq_list_go_imp f bound hf xs1 ys1 ?_ hpx.2 hpy.2 h.2⟩
      · simp only [VTypeL.msize] at hsize
        omega
      · simp only [VTypeL.msize] at hsize
        omega
termination_by structural xs _ => xs

/-- Main induction for the amended claim C2, over the recursion fuel: on
plain types (no T_SUBTYPE, T_CARRAY or designated access type in any compared
position), strict equality implies liberal equality, and likewise for the
parameter lists. -/
theorem strict_imp_eq_f (fuel : Nat) :
    ∀ a b : VType, a.msize + b.msize ≤ fuel →
      plain_type a = true → plain_type b = true →
      type_strict_eq a b = true → type_eq_f fuel a b = true := by
  induction fuel with
  | zero =>
    intro a b hsize _ _ _
    obtain ⟨ka, ia, ba, da, ea, fa, pa, ra, xa, ica, ca⟩ := a
    simp only [VType.msize] at hsize
    omega
  | succ fuel IH =>
    intro a b hsize hpa hpb h
    by_cases heq : a = b
    · subst heq
      simp [type_eq_f]
    · obtain ⟨ka, ia, ba, da, ea, fa, pa, ra, xa, ica, ca⟩ := a
      obtain ⟨kb, ib, bb, db, eb, fb, pb, rb, xb, icb, cb⟩ := b
      unfold type_strict_eq at h
      rw [if_neg heq] at h
      by_cases hk : ka = kb
      case neg =>
        rw [if_pos hk] at h
        cases h
      subst hk
      rw [if_neg (fun hc => hc rfl)] at h
      simp only [plain_type, Bool.and_eq_true, decide_eq_true_eq] at hpa hpb
      obtain ⟨⟨⟨⟨⟨hka1, hka2⟩, hpea⟩, hpra⟩, hxa⟩, hppa⟩ := hpa
      obtain ⟨⟨⟨⟨⟨hkb1, hkb2⟩, hpeb⟩, hprb⟩, hxb⟩, hppb⟩ := hpb
      subst hxa
      subst hxb
      simp only [type_eq_f, if_neg heq]
      rw [type_base_recur_eq_self _ (by simpa using hka1),
          type_base_recur_eq_self _ (by simpa using hkb1)]
      simp only [VType.kind, VType.identO, VType.accO, VType.elemO,
        VType.dims, VType.ptypes, VType.resultO]
      have hstep : ∀ R T : Bool, (if ¬R then false else T) = true →
          R = true ∧ T = true := by
        intro R T hh
        by_cases hR : R = true
        · rw [if_neg (not_not_intro hR)] at hh
          exact ⟨hR, hh⟩
        · rw [if_pos hR] at hh
          cases hh
      have hpt : (if has_ptypes_item ka then
            pa.length == pb.length && type_strict_eq_list pa pb
          else true) = true →
          (if has_ptypes_item ka then
            pa.length == pb.length && type_eq_list_go (type_eq_f fuel) pa pb
          else true) = true := by
        intro hh
        by_cases hp : has_ptypes_item ka = true
        · rw [if_pos hp] at hh ⊢
          rw [Bool.and_eq_true] at hh ⊢
          have hm : pa.msize + pb.msize ≤ fuel := by
            simp only [VType.msize] at hsize
            omega
          exact ⟨hh.1, type_eq_list_go_imp (type_eq_f fuel) fuel IH
            pa pb hm hppa hppb hh.2⟩
        · rw [if_neg hp]
      have hbuild : ∀ R T : Bool, R = true → T = true →
          (if ¬R then false else T) = true := by
        intro R T h1 h2
        rw [if_neg (not_not_intro h1)]
        exact h2
      rw [if_neg (fun hc => hc.1 rfl)]
      by_cases hic : ident_conflict ia ib = true
      · rw [if_pos hic] at h
        cases h
      · rw [if_neg hic] at h
        rw [if_neg hic]
        by_cases hinc : ka = TypeKind.T_INCOMPLETE
        · rw [if_pos (Or.inl hinc)]
        · rw [if_neg (by rintro (hc | hc) <;> exact hinc hc)]
          by_cases hacc : ka = TypeKind.T_ACCESS
          · rw [if_pos hacc] at h
            rw [if_pos hacc]
          · rw [if_neg hacc] at h
            rw [if_neg hacc]
            rw [if_neg (by
              rintro (⟨h1, h2⟩ | ⟨h1, h2⟩) <;> subst h1 <;> cases h2)]
            by_cases hel : has_elem_item ka = true
            · have hua := elem_kind_not_carray ka hel hka2
              subst hua
              rw [if_neg (by simp [has_dims_item])]
              rw [if_neg (by simp)]
              rw [if_neg (by simp [has_ptypes_item])]
            · rw [if_neg hel] at h
              by_cases hd : has_dims_item ka ∧ da.length ≠ db.length
              · rw [if_pos hd] at h
                cases h
              · rw [if_neg hd] at h
                rw [if_neg hd]
                obtain ⟨hr, hpts⟩ := hstep _ _ h
                clear h
                by_cases hf : ka = TypeKind.T_FUNC
                · rw [if_pos hf] at hr
                  cases ra <;> cases rb
                  · exact hbuild _ _ (by rw [if_pos hf]) (hpt hpts)
                  · exact Bool.noConfusion hr
                  · exact Bool.noConfusion hr
                  · rename_i ra1 rb1
                    have hst : type_strict_eq ra1 rb1 = true := hr
                    have hm : ra1.msize + rb1.msize ≤ fuel := by
                      simp only [VType.msize, VTypeO.msize] at hsize
                      omega
                    have hp1 : plain_type ra1 = true := by
                      simpa [plain_typeO] using hpra
                    have hp2 : plain_type rb1 = true := by
                      simpa [plain_typeO] using hprb
                    exact hbuild _ _
                      (by rw [if_pos hf]; exact IH ra1 rb1 hm hp1 hp2 hst)
                      (hpt hpts)
                · exact hbuild _ _ (by rw [if_neg hf]) (hpt hpts)

/-- C2: the claim fails in general (see `c2_counterexample`); the amended
property: on plain types — containing no T_SUBTYPE, no T_CARRAY and no
designated access type in any position the equality functions compare —
`type_strict_eq(a, b)` returning true implies `type_eq(a, b)` returns
true. -/
theorem type_strict_eq_imp_type_eq (a b : VType)
    (hpa : plain_type a = true) (hpb : plain_type b = true)
    (h : type_strict_eq a b = true) : type_eq a b = true :=
  strict_imp_eq_f (a.msize + b.msize) a b (le_refl _) hpa hpb h

/-- C2 witness: the amended theorem applied to two distinct plain integer
types with the same ident and ranges of the same count. -/
theorem type_strict_eq_imp_type_eq_witness :
    plain_type t_int = true ∧ plain_type t_int50 = true
      ∧ type_strict_eq t_int t_int50 = true
      ∧ type_eq t_int t_int50 = true :=
  ⟨by decide, by decide, by decide,
    type_strict_eq_imp_type_eq t_int t_int50 (by decide) (by decide) (by decide)⟩

/-- Every type object has positive structural size. -/
theorem VType_msize_pos (t : VType) : 1 ≤ t.msize := by
  obtain ⟨k, i, b, d, e, f, p, r, x, ic, c⟩ := t
  simp only [VType.msize]
  omega

/-- `ALIGN_UP` never moves an offset backwards. -/
theorem align_up_ge (x a : Nat) : x ≤ align_up x a := by
  unfold align_up
  by_cases h : a = 0
  · rw [if_pos h]
  · rw [if_neg h]
    have ha : 0 < a := Nat.pos_of_ne_zero h
    rcases Nat.eq_zero_or_pos x with hx | hx
    · subst hx
      exact Nat.zero_le _
    · have hx1 : x + a - 1 = (x - 1) + a := by omega
      rw [hx1, Nat.add_div_right _ ha, Nat.add_mul, Nat.one_mul]
      have h3 := Nat.div_add_mod' (x - 1) a
      have h4 : (x - 1) % a < a := Nat.mod_lt _ ha
      omega

/-- `ALIGN_UP` with a nonzero alignment returns a multiple of it. -/
theorem align_up_dvd (x a : Nat) (ha : 1 ≤ a) : a ∣ align_up x a := by
  unfold align_up
  rw [if_neg (by omega)]
  exact dvd_mul_left a _

/-- `bits_unsigned` returns at least one bit. -/
theorem bits_unsigned_pos (v : Nat) : 1 ≤ bits_unsigned v := by
  unfold bits_unsigned
  by_cases h : v = 0
  · rw [if_pos h]
  · rw [if_neg h]
    obtain ⟨k, rfl⟩ := Nat.exists_eq_succ_of_ne_zero h
    simp only [nat_bits_f]
    rw [if_neg h]
    omega

/-- `bits_for_range` returns at least one bit. -/
theorem bits_for_range_pos (lo hi : Int) : 1 ≤ bits_for_range lo hi := by
  unfold bits_for_range
  by_cases h : lo < 0
  · rw [if_pos h]
    omega
  · rw [if_neg h]
    exact bits_unsigned_pos _

/-- A scalar layout's byte size `ALIGN_UP(bits, 8) / 8` is positive. -/
theorem scalar_size_pos (b : Nat) (hb : 1 ≤ b) : 1 ≤ align_up b 8 / 8 := by
  unfold align_up
  rw [if_neg (by omega), Nat.mul_div_cancel _ (by omega : 0 < 8)]
  exact (Nat.le_div_iff_mul_le (by omega)).mpr (by omega)

/-- The field loop of `layout_of` preserves the C1 invariant: fields never
shrink the running offset below the storage laid out so far, and every
emitted part sits at its alignment. -/
theorem layout_fields_go_inv (fn : VType → Option JitLayout)
    (hfn : ∀ f l', fn f = Option.some l' → layout_inv l') :
    ∀ fs : VTypeL, ∀ offset : Nat, ∀ acc : List LayoutPart,
      ∀ sz : Nat, ∀ parts : List LayoutPart,
      part_sum acc ≤ offset →
      (∀ p ∈ acc, p.align ∣ p.offset ∧ 1 ≤ p.align) →
      layout_fields_go fn fs offset acc = Option.some (sz, parts) →
      part_sum parts ≤ sz ∧ ∀ p ∈ parts, p.align ∣ p.offset ∧ 1 ≤ p.align
  | .nil => fun offset acc sz parts hsum hacc hgo => by
      simp only [layout_fields_go, Option.some.injEq, Prod.mk.injEq] at hgo
      obtain ⟨h1, h2⟩ := hgo
      subst h1
      subst h2
      refine ⟨?_, ?_⟩
      · simpa [part_sum, List.sum_reverse] using hsum
      · intro p hp
        exact hacc p (List.mem_reverse.mp hp)
  | .cons f fs => fun offset acc sz parts hsum hacc hgo => by
      simp only [layout_fields_go] at hgo
      cases hfl : fn f with
      | none =>
        rw [hfl] at hgo
        exact Option.noConfusion hgo
      | some fl =>
        rw [hfl] at hgo
        have hinv := hfn f fl hfl
        refine layout_fields_go_inv fn hfn fs
          (align_up offset fl.align + fl.size) _ sz parts ?_ ?_ hgo
        · simp only [part_sum, List.map_cons, List.sum_cons]
          have hs : part_sum acc ≤ offset := hsum
          simp only [part_sum] at hs
          have hge := align_up_ge offset fl.align
          omega
        · intro p hp
          rcases List.mem_cons.mp hp with hpe | hpa
          · subst hpe
            exact ⟨align_up_dvd _ _ hinv.2.1, hinv.2.1⟩
          · exact hacc p hpa
termination_by structural fs => fs

/-- The C1 invariant holds of every layout the first copy produces, at any
fuel. -/
theorem layout_of_f_inv (fuel : Nat) :
    ∀ t l, layout_of_f fuel t = Option.some l → layout_inv l := by
  induction fuel with
  | zero =>
    intro t l h
    exact Option.noConfusion h
  | succ fuel IH =>
    intro t l h
    simp only [layout_of_f] at h
    by_cases h1 : (type_is_integer t || type_is_physical t || type_is_enum t) = true
    · rw [if_pos h1] at h
      cases hd : (type_base_recur t).dims.head? with
      | none =>
        simp only [hd] at h
        exact Option.noConfusion h
      | some r =>
        simp only [hd] at h
        cases hf : r.folded with
        | none =>
          simp only [hf] at h
          exact Option.noConfusion h
        | some lohi =>
          obtain ⟨low, high⟩ := lohi
          simp only [hf] at h
          injection h with h2
          subst h2
          have hsz : 1 ≤ align_up (bits_for_range low high) 8 / 8 :=
            scalar_size_pos _ (bits_for_range_pos _ _)
          refine ⟨?_, hsz, ?_⟩
          · simp [part_sum]
          · intro p hp
            rcases List.mem_singleton.mp hp with rfl
            exact ⟨dvd_zero _, hsz⟩
    · rw [if_neg h1] at h
      by_cases h2 : type_is_real t = true
      · rw [if_pos h2] at h
        injection h with h3
        subst h3
        refine ⟨by simp [part_sum], by simp, ?_⟩
        intro p hp
        rcases List.mem_singleton.mp hp with rfl
        exact ⟨dvd_zero _, by simp⟩
      · rw [if_neg h2] at h
        by_cases h3 : type_is_array t = true
        · rw [if_pos h3] at h
          cases hc : count_sub_elements t with
          | some nelems =>
            simp only [hc] at h
            cases hel : layout_of_f fuel (type_elem_recur t) with
            | none =>
              simp only [hel] at h
              exact Option.noConfusion h
            | some el =>
              simp only [hel] at h
              injection h with h4
              subst h4
              have hinv := IH _ _ hel
              refine ⟨?_, hinv.2.1, ?_⟩
              · simp [part_sum, Nat.mul_comm]
              · intro p hp
                rcases List.mem_singleton.mp hp with rfl
                exact ⟨dvd_zero _, hinv.2.1⟩
          | none =>
            simp only [hc] at h
            by_cases hsub : t.kind = TypeKind.T_SUBTYPE
            · rw [if_pos hsub] at h
              exact IH _ _ h
            · rw [if_neg hsub] at h
              injection h with h4
              subst h4
              refine ⟨?_, by simp, ?_⟩
              · simp [part_sum]
                omega
              · intro p hp
                rcases List.mem_cons.mp hp with rfl | hp2
                · exact ⟨dvd_zero _, by simp⟩
                · rcases List.mem_singleton.mp hp2 with rfl
                  exact ⟨dvd_refl 8, by simp⟩
        · rw [if_neg h3] at h
          by_cases h4 : type_is_record t = true
          · rw [if_pos h4] at h
            cases hgo : layout_fields_go (layout_of_f fuel) (type_fields_of t) 0 [] with
            | none =>
              simp only [hgo] at h
              exact Option.noConfusion h
            | some szparts =>
              obtain ⟨sz0, parts0⟩ := szparts
              simp only [hgo] at h
              injection h with h5
              subst h5
              have hrec := layout_fields_go_inv (layout_of_f fuel)
                (fun f l' hf => IH f l' hf) (type_fields_of t) 0 [] sz0 parts0
                (by simp [part_sum]) (by intro p hp; cases hp) hgo
              exact ⟨hrec.1, by simp, hrec.2⟩
          · rw [if_neg h4] at h
            exact Option.noConfusion h

/-- C1: every layout returned by `layout_of` satisfies
`size >= Σ parts[i].size * parts[i].repeat`, and every part's offset is a
multiple of that part's alignment. -/
theorem layout_of_spec (t : VType) (l : JitLayout)
    (h : layout_of t = Option.some l) :
    (l.parts.map (fun p => p.size * p.rep)).sum ≤ l.size
      ∧ ∀ p ∈ l.parts, p.align ∣ p.offset := by
  have hi := layout_of_f_inv t.msize t l h
  exact ⟨hi.1, fun p hp => (hi.2.2 p hp).1⟩

/-- C1 witness: the theorem applied to the sample integer type, whose layout
is a single one-byte part. -/
theorem layout_of_spec_witness :
    layout_of t_int
        = Option.some { size := 1, align := 1,
                        parts := [{ offset := 0, size := 1, rep := 1, align := 1,
                                    cls := LayoutClass.LC_DATA }] }
      ∧ (([{ offset := 0, size := 1, rep := 1, align := 1,
             cls := LayoutClass.LC_DATA }] : List LayoutPart).map
            (fun p => p.size * p.rep)).sum ≤ 1 :=
  ⟨by decide,
    (layout_of_spec t_int
      { size := 1, align := 1,
        parts := [{ offset := 0, size := 1, rep := 1, align := 1,
                    cls := LayoutClass.LC_DATA }] } (by decide)).1⟩

/-- `type_elem` either returns its argument unchanged or a strictly smaller
type object. -/
theorem type_elem_fix_or_lt : ∀ t : VType,
    type_elem t = t ∨ (type_elem t).msize < t.msize
  | .mk k i b d e f p r x ic c => by
    cases k
    case T_SUBTYPE =>
      cases b with
      | none =>
        cases e with
        | none => exact Or.inl rfl
        | some e1 =>
          right
          show VType.msize e1 < _
          simp only [VType.msize, VTypeO.msize]
          omega
      | some bb =>
        right
        simp only [type_elem]
        rcases type_elem_fix_or_lt bb with hb | hb
        · rw [hb]
          simp only [VType.msize, VTypeO.msize]
          omega
        · simp only [VType.msize, VTypeO.msize]
          omega
    all_goals cases e
    all_goals first
      | exact Or.inl rfl
      | (right
         rename_i e1
         show VType.msize e1 < _
         simp only [VType.msize, VTypeO.msize]
         omega)
termination_by structural t => t

/-- A fixed point of `type_elem` is a fixed point of the elem-recursion at
any fuel. -/
theorem ter_fix (f : Nat) (t : VType) (h : type_elem t = t) :
    type_elem_recur_f f t = t := by
  induction f with
  | zero => rfl
  | succ f IH =>
    simp only [type_elem_recur_f]
    by_cases ha : type_is_array t = true
    · rw [if_pos ha, h]
      exact IH
    · rw [if_neg ha]

/-- The elem-recursion is fuel-irrelevant above `msize`. -/
theorem ter_irrel (f1 : Nat) : ∀ f2 t, t.msize ≤ f1 → t.msize ≤ f2 →
    type_elem_recur_f f1 t = type_elem_recur_f f2 t := by
  induction f1 with
  | zero =>
    intro f2 t h1 _
    have := VType_msize_pos t
    omega
  | succ f1 IH =>
    intro f2 t h1 h2
    have hpos := VType_msize_pos t
    cases f2 with
    | zero => omega
    | succ f2 =>
      simp only [type_elem_recur_f]
      by_cases ha : type_is_array t = true
      · rw [if_pos ha, if_pos ha]
        rcases type_elem_fix_or_lt t with hfix | hlt
        · rw [hfix, ter_fix f1 t hfix, ter_fix f2 t hfix]
        · exact IH f2 (type_elem t) (by omega) (by omega)
      · rw [if_neg ha, if_neg ha]

/-- On an array type the two spellings of the ultimate element agree:
`type_elem_recur t` takes one `type_elem` step first. -/
theorem ter_step (t : VType) (ha : type_is_array t = true) :
    type_elem_recur t = type_elem_recur (type_elem t) := by
  unfold type_elem_recur
  have hpos := VType_msize_pos t
  obtain ⟨m, hm⟩ : ∃ m, t.msize = m + 1 := ⟨t.msize - 1, by omega⟩
  rw [hm]
  simp only [type_elem_recur_f]
  rw [if_pos ha]
  rcases type_elem_fix_or_lt t with hfix | hlt
  · rw [hfix, ter_fix m t hfix, ter_fix t.msize t hfix]
  · exact ter_irrel m ((type_elem t).msize) (type_elem t) (by omega) (le_refl _)

/-- `dimension_of` is invariant under following subtype bases. -/
theorem dimension_of_tbr : ∀ t : VType,
    dimension_of (type_base_recur t) = dimension_of t
  | .mk k i b d e f p r x ic c => by
    cases k
    case T_SUBTYPE =>
      cases b with
      | none => rfl
      | some bb =>
        simp only [type_base_recur, dimension_of]
        exact dimension_of_tbr bb
    all_goals rfl
termination_by structural t => t

/-- A non-subtype is its own base kind. -/
theorem base_kind_self (t : VType) (h : t.kind ≠ .T_SUBTYPE) :
    type_base_kind t = t.kind := by
  obtain ⟨k, i, b, d, e, f, p, r, x, ic, c⟩ := t
  cases k
  case T_SUBTYPE => exact absurd rfl h
  all_goals cases b <;> rfl

/-- A non-subtype whose kind is T_UARRAY is unconstrained. -/
theorem is_unconstrained_uarray (u : VType) (h : u.kind = TypeKind.T_UARRAY) :
    type_is_unconstrained u = true := by
  obtain ⟨k, i, b, d, e, f, p, r, x, ic, c⟩ := u
  simp only [VType.kind] at h
  subst h
  rfl

/-- An unconstrained array has no statically known element count. -/
theorem cse_none_of_unconstrained (u : VType) (ha : type_is_array u = true)
    (hu : type_is_unconstrained u = true) :
    count_sub_elements u = Option.none := by
  unfold count_sub_elements
  obtain ⟨m, hm⟩ : ∃ m, u.msize = m + 1 :=
    ⟨u.msize - 1, by have := VType_msize_pos u; omega⟩
  rw [hm]
  simp only [count_sub_elements_f]
  rw [if_pos ha, if_pos hu]

/-- The field loop produces identical results for two layout functions that
agree up to part classes on well-formed fields (the loop itself only reads
sizes and alignments, and assigns the same class). -/
theorem layout_fields_go_congr (fn1 fn2 : VType → Option JitLayout)
    (w : VType → Bool)
    (hpt : ∀ f, w f = true →
      Option.map erase_classes (fn1 f) = Option.map erase_classes (fn2 f)) :
    ∀ fs : VTypeL, ∀ offset : Nat, ∀ acc : List LayoutPart,
      layout_wf_go w fs = true →
      layout_fields_go fn1 fs offset acc = layout_fields_go fn2 fs offset acc
  | .nil => fun _ _ _ => rfl
  | .cons f fs => fun offset acc hwf => by
      simp only [layout_wf_go, Bool.and_eq_true] at hwf
      have heq := hpt f hwf.1
      simp only [layout_fields_go]
      cases h1 : fn1 f with
      | none =>
        cases h2 : fn2 f with
        | none => rfl
        | some l2 =>
          rw [h1, h2] at heq
          simp at heq
      | some l1 =>
        cases h2 : fn2 f with
        | none =>
          rw [h1, h2] at heq
          simp at heq
        | some l2 =>
          rw [h1, h2] at heq
          simp only [Option.map_some', Option.some.injEq, erase_classes,
            Prod.mk.injEq] at heq
          obtain ⟨hsz, hal, -⟩ := heq
          show layout_fields_go fn1 fs (align_up offset l1.align + l1.size)
              ({ offset := align_up offset l1.align, size := l1.size, rep := 1,
                 align := l1.align, cls := LayoutClass.LC_DATA } :: acc)
            = layout_fields_go fn2 fs (align_up offset l2.align + l2.size)
              ({ offset := align_up offset l2.align, size := l2.size, rep := 1,
                 align := l2.align, cls := LayoutClass.LC_DATA } :: acc)
          rw [hsz, hal]
          exact layout_fields_go_congr fn1 fn2 w hpt fs _ _ hwf.2
termination_by structural fs => fs

/-- The two `layout_of` copies agree up to part classes on well-formed types,
at every shared fuel. -/
theorem copies_agree_f (fuel : Nat) :
    ∀ t, layout_wf_f fuel t = true →
      Option.map erase_classes (layout_of_f fuel t)
        = Option.map erase_classes (layout_of2_f fuel t) := by
  induction fuel with
  | zero =>
    intro t hwf
    exact Bool.noConfusion hwf
  | succ fuel IH =>
    intro t hwf
    simp only [layout_wf_f] at hwf
    simp only [layout_of_f, layout_of2_f]
    by_cases h1 : (type_is_integer t || type_is_physical t || type_is_enum t) = true
    · rw [if_pos h1, if_pos h1]
    · rw [if_neg h1, if_neg h1]
      rw [if_neg h1] at hwf
      by_cases h2 : type_is_real t = true
      · rw [if_pos h2, if_pos h2]
      · rw [if_neg h2, if_neg h2]
        rw [if_neg h2] at hwf
        by_cases h3 : type_is_array t = true
        · rw [if_pos h3, if_pos h3]
          rw [if_pos h3] at hwf
          cases hc : count_sub_elements t with
          | some nelems =>
            simp only [hc] at hwf ⊢
            rw [← ter_step t h3]
            have hIH := IH (type_elem_recur t) hwf
            cases hel1 : layout_of_f fuel (type_elem_recur t) with
            | none =>
              cases hel2 : layout_of2_f fuel (type_elem_recur t) with
              | none => rfl
              | some el2 =>
                rw [hel1, hel2] at hIH
                simp at hIH
            | some el1 =>
              cases hel2 : layout_of2_f fuel (type_elem_recur t) with
              | none =>
                rw [hel1, hel2] at hIH
                simp at hIH
              | some el2 =>
                rw [hel1, hel2] at hIH
                simp only [Option.map_some', Option.some.injEq, erase_classes,
                  Prod.mk.injEq] at hIH
                obtain ⟨hsz, hal, -⟩ := hIH
                simp [erase_classes, hsz, hal]
          | none =>
            simp only [hc] at hwf ⊢
            by_cases hsub : t.kind = TypeKind.T_SUBTYPE
            · rw [if_pos hsub] at hwf
              rw [if_pos hsub]
              rw [Bool.and_eq_true] at hwf
              obtain ⟨hwfb, hub'⟩ := hwf
              have hub : (type_base_recur t).kind = TypeKind.T_UARRAY := by
                simpa using hub'
              cases fuel with
              | zero => exact Bool.noConfusion hwfb
              | succ fuel2 =>
                simp only [layout_of_f]
                have hbk : type_base_kind (type_base_recur t)
                    = TypeKind.T_UARRAY := by
                  rw [base_kind_self _ (by rw [hub]; intro hcon; cases hcon)]
                  exact hub
                rw [if_neg (by
                  simp [type_is_integer, type_is_physical, type_is_enum, hbk])]
                rw [if_neg (by simp [type_is_real, hbk])]
                rw [if_pos (by simp [type_is_array, hbk])]
                rw [cse_none_of_unconstrained _ (by simp [type_is_array, hbk])
                  (is_unconstrained_uarray _ hub)]
                rw [if_neg (by rw [hub]; intro hcon; cases hcon)]
                rw [dimension_of_tbr t]
                simp [erase_classes]
            · rw [if_neg hsub]
              simp [erase_classes]
        · rw [if_neg h3, if_neg h3]
          rw [if_neg h3] at hwf
          by_cases h4 : type_is_record t = true
          · rw [if_pos h4, if_pos h4]
            rw [if_pos h4] at hwf
            rw [layout_fields_go_congr (layout_of_f fuel) (layout_of2_f fuel)
              (layout_wf_f fuel) (fun f hf => IH f hf) (type_fields_of t) 0 [] hwf]
          · rw [if_neg h4, if_neg h4]

/-- C4: the claim fails on part classes (see `c4_counterexample`); the
amended property: on `layout_wf` types the two copies return layouts with
identical sizes, alignments, and part offsets/sizes/repeats/alignments (the
part classes differ on unconstrained arrays: the first copy marks them
LC_EXTERNAL and LC_BOUNDS, the second leaves the calloc zero LC_DATA; and for
an array subtype whose element count is unknown the first copy returns the
base type's layout, which carries the same numbers). -/
theorem layout_copies_numeric_agree (t : VType) (h : layout_wf t = true) :
    Option.map erase_classes (layout_of t)
      = Option.map erase_classes (layout_of2 t) :=
  copies_agree_f t.msize t h

/-- C4 witness: the amended theorem applied to the sample unconstrained
array. -/
theorem layout_copies_numeric_agree_witness :
    layout_wf t_uarray = true
      ∧ Option.map erase_classes (layout_of t_uarray)
          = Option.map erase_classes (layout_of2 t_uarray) :=
  ⟨by decide, layout_copies_numeric_agree t_uarray (by decide)⟩

/-- C4 counterexample: on the sample unconstrained array — which is not a
subtype — the two copies disagree on the part classes: the first copy
returns LC_EXTERNAL and LC_BOUNDS parts, the second leaves both parts with
the calloc zero class LC_DATA, so the layouts are not identical. -/
theorem c4_counterexample :
    t_uarray.kind ≠ TypeKind.T_SUBTYPE
      ∧ (layout_of t_uarray).map (fun l => l.parts.map (fun p => p.cls))
          = Option.some [LayoutClass.LC_EXTERNAL, LayoutClass.LC_BOUNDS]
      ∧ (layout_of2 t_uarray).map (fun l => l.parts.map (fun p => p.cls))
          = Option.some [LayoutClass.LC_DATA, LayoutClass.LC_DATA]
      ∧ layout_of t_uarray ≠ layout_of2 t_uarray := by
  refine ⟨by decide, by decide, by decide, by decide⟩

/-! ### Open-addressing machinery (claims C6 and C9) -/

/-- `nat_bits_f` of zero is zero at any fuel. -/
theorem nat_bits_zero (f : Nat) : nat_bits_f f 0 = 0 := by
  cases f <;> simp [nat_bits_f]

/-- `nat_bits_f` counts the bits of a power of two exactly, given fuel. -/
theorem nat_bits_pow2 : ∀ k fuel, 2 ^ k ≤ fuel → nat_bits_f fuel (2 ^ k) = k + 1 := by
  intro k
  induction k with
  | zero =>
    intro fuel h
    cases fuel with
    | zero => omega
    | succ f => simp [nat_bits_f, nat_bits_zero]
  | succ k IH =>
    intro fuel h
    have hpos := Nat.two_pow_pos (k + 1)
    cases fuel with
    | zero => omega
    | succ f =>
      simp only [nat_bits_f]
      rw [if_neg (by omega)]
      have h2 : 2 ^ (k + 1) / 2 = 2 ^ k := by
        rw [Nat.pow_succ]
        exact Nat.mul_div_cancel _ (by omega)
      have h3 : 2 ^ (k + 1) = 2 * 2 ^ k := by
        rw [Nat.pow_succ]
        omega
      rw [h2, IH f (by have := Nat.two_pow_pos k; omega)]

/-- `oa_pow2` certifies an exact power of two. -/
theorem oa_pow2_exists (n : Nat) (h : oa_pow2 n = true) : ∃ m, n = 2 ^ m := by
  unfold oa_pow2 at h
  rw [Bool.and_eq_true] at h
  exact ⟨nat_bits_f n n - 1, by simpa using h.2⟩

/-- Every power of two passes `oa_pow2`. -/
theorem oa_pow2_two_pow (k : Nat) : oa_pow2 (2 ^ k) = true := by
  unfold oa_pow2
  rw [Bool.and_eq_true]
  constructor
  · have := Nat.two_pow_pos k
    simp
  · rw [nat_bits_pow2 k (2 ^ k) (le_refl _)]
    simp

/-- Doubling preserves `oa_pow2`. -/
theorem oa_pow2_double (n : Nat) (h : oa_pow2 n = true) : oa_pow2 (2 * n) = true := by
  obtain ⟨m, rfl⟩ := oa_pow2_exists n h
  have : 2 * 2 ^ m = 2 ^ (m + 1) := by
    rw [Nat.pow_succ]
    omega
  rw [this]
  exact oa_pow2_two_pow (m + 1)

/-- `oa_pow2` sizes are positive. -/
theorem oa_pow2_pos (n : Nat) (h : oa_pow2 n = true) : 1 ≤ n := by
  obtain ⟨m, rfl⟩ := oa_pow2_exists n h
  exact Nat.two_pow_pos m

/-- Triangular-number addition formula. -/
theorem tri_add (i d : Nat) : tri (i + d) = tri i + i * d + tri d := by
  unfold tri
  have h1 : (i + d) * (i + d + 1) = i * (i + 1) + (2 * (i * d) + d * (d + 1)) := by
    ring
  rw [h1, Nat.add_div_of_dvd_right (Nat.even_mul_succ_self i).two_dvd,
      Nat.add_div_of_dvd_right ⟨i * d, rfl⟩,
      Nat.mul_div_cancel_left _ (by omega : 0 < 2)]
  omega

/-- Triangular numbers are monotone. -/
theorem tri_mono (i j : Nat) (h : i ≤ j) : tri i ≤ tri j :=
  Nat.div_le_div_right (Nat.mul_le_mul h (by omega))

/-- Twice a triangular number. -/
theorem two_tri (d : Nat) : 2 * tri d = d * (d + 1) :=
  Nat.mul_div_cancel' (Nat.even_mul_succ_self d).two_dvd

/-- Ordered half of the triangular injectivity argument. -/
theorem tri_inj_aux (m i j : Nat) (hle : i ≤ j) (hj : j < 2 ^ m)
    (h : tri i % 2 ^ m = tri j % 2 ^ m) : i = j := by
  obtain ⟨d, rfl⟩ := Nat.exists_eq_add_of_le hle
  have hsub : tri (i + d) - tri i = i * d + tri d := by
    rw [tri_add]
    omega
  have hdvd : 2 ^ m ∣ i * d + tri d := by
    rw [← hsub]
    exact (Nat.modEq_iff_dvd' (tri_mono i (i + d) (by omega))).mp h
  have hmul : 2 * (i * d + tri d) = d * (2 * i + d + 1) := by
    calc 2 * (i * d + tri d) = 2 * (i * d) + 2 * tri d := by ring
    _ = 2 * (i * d) + d * (d + 1) := by rw [two_tri]
    _ = d * (2 * i + d + 1) := by ring
  have hdvd2 : 2 ^ (m + 1) ∣ d * (2 * i + d + 1) := by
    rw [← hmul, Nat.pow_succ, Nat.mul_comm (2 ^ m) 2]
    exact Nat.mul_dvd_mul_left 2 hdvd
  have hps : 2 ^ (m + 1) = 2 * 2 ^ m := by
    rw [Nat.pow_succ]
    omega
  rcases Nat.even_or_odd d with hd | hd
  · have he : ¬ 2 ∣ (2 * i + d + 1) := by
      rcases hd with ⟨c, hc⟩
      omega
    have hcop : Nat.Coprime (2 ^ (m + 1)) (2 * i + d + 1) :=
      Nat.Coprime.pow_left _ ((Nat.Prime.coprime_iff_not_dvd Nat.prime_two).mpr he)
    have hd2 : 2 ^ (m + 1) ∣ d := hcop.dvd_of_dvd_mul_right hdvd2
    rcases Nat.eq_zero_or_pos d with hz | hz
    · omega
    · have := Nat.le_of_dvd hz hd2
      omega
  · have he : ¬ 2 ∣ d := by
      rcases hd with ⟨c, hc⟩
      omega
    have hcop : Nat.Coprime (2 ^ (m + 1)) d :=
      Nat.Coprime.pow_left _ ((Nat.Prime.coprime_iff_not_dvd Nat.prime_two).mpr he)
    have hd2 : 2 ^ (m + 1) ∣ (2 * i + d + 1) := hcop.dvd_of_dvd_mul_left hdvd2
    have := Nat.le_of_dvd (by omega) hd2
    omega

/-- The quadratic (triangular) probe offsets are injective modulo every
power of two: the first `2^m` probes visit distinct slots. -/
theorem off_inj_mod_tri : off_inj_mod tri := by
  intro m i j hi hj h
  rcases Nat.le_total i j with hle | hle
  · exact tri_inj_aux m i j hle hj h
  · exact (tri_inj_aux m j i hle hi h.symm).symm

/-- Linear probing offsets are injective modulo every power of two. -/
theorem off_inj_mod_id : off_inj_mod id := by
  intro m i j hi hj h
  simpa [Nat.mod_eq_of_lt hi, Nat.mod_eq_of_lt hj] using h

/-- `countP` after a `set`, accounting for the replaced element. -/
theorem countP_set {A : Type} (p : A → Bool) : ∀ (l : List A) (s : Nat) (x : A)
    (h : s < l.length),
    (l.set s x).countP p + (if p (l.get ⟨s, h⟩) then 1 else 0)
      = l.countP p + (if p x then 1 else 0) := by
  intro l
  induction l with
  | nil =>
    intro s x h
    simp at h
  | cons a l IH =>
    intro s x h
    cases s with
    | zero =>
      simp only [List.set_cons_zero, List.countP_cons, List.get_eq_getElem,
        List.getElem_cons_zero]
      omega
    | succ s =>
      simp only [List.set_cons_succ, List.countP_cons, List.get_eq_getElem,
        List.getElem_cons_succ]
      have := IH s x (by simpa using h)
      simp only [List.get_eq_getElem] at this
      omega

/-- `find?` over `range` skips no earlier match. -/
theorem range_find?_min {p : Nat → Bool} : ∀ n j, (List.range n).find? p = Option.some j →
    ∀ i, i < j → p i = false := by
  intro n
  induction n with
  | zero =>
    intro j h
    simp [List.range_zero] at h
  | succ n IH =>
    intro j h i hi
    rw [List.range_succ, List.find?_append] at h
    cases hfn : (List.range n).find? p with
    | some j0 =>
      rw [hfn] at h
      have hjj : j0 = j := Option.some.inj h
      subst hjj
      exact IH j0 hfn i hi
    | none =>
      rw [hfn] at h
      simp only [Option.none_or] at h
      have hall := List.find?_eq_none.mp hfn
      have hj : j = n := by
        have := List.mem_of_find?_eq_some h
        simpa using this
      subst hj
      exact Bool.eq_false_iff.mpr (fun hc => (hall i (List.mem_range.mpr hi)) hc)

/-- A witness below `n` makes `find?` over `range n` succeed. -/
theorem range_find?_some_of_exists {p : Nat → Bool} {n j : Nat} (hj : j < n)
    (hp : p j = true) : ∃ j0, (List.range n).find? p = Option.some j0 := by
  cases hf : (List.range n).find? p with
  | some j0 => exact ⟨j0, rfl⟩
  | none => exact absurd hp (by simpa using List.find?_eq_none.mp hf j (List.mem_range.mpr hj))

/-- `find?` over `range` returns the unique first match. -/
theorem range_find?_unique {p : Nat → Bool} {n j0 : Nat} (hn : j0 < n)
    (hp : p j0 = true) (hmin : ∀ i, i < j0 → p i = false) :
    (List.range n).find? p = Option.some j0 := by
  obtain ⟨j, hj⟩ := range_find?_some_of_exists hn hp
  have h1 := List.find?_some hj
  have hmin2 := range_find?_min n j hj
  have hjj : j = j0 := by
    rcases Nat.lt_trichotomy j j0 with h | h | h
    · exact absurd h1 (by simp [hmin j h])
    · exact h
    · exact absurd hp (by simp [hmin2 j0 h])
  rwa [hjj] at hj

/-- Probe positions stay below a power-of-two capacity. -/
theorem oa_pos_lt {K : Type} (hashF : K → Nat) (off : Nat → Nat) (m : Nat)
    (k : K) (j : Nat) : oa_pos hashF off (2 ^ m) k j < 2 ^ m := by
  unfold oa_pos
  rw [Nat.and_pow_two_sub_one_eq_mod]
  exact Nat.mod_lt _ (Nat.two_pow_pos m)

/-- With offsets injective mod powers of two the first `2^m` probes are
pairwise distinct. -/
theorem oa_pos_inj {K : Type} (hashF : K → Nat) (off : Nat → Nat)
    (hoff : off_inj_mod off) (m : Nat) (k : K) {i j : Nat} (hi : i < 2 ^ m)
    (hj : j < 2 ^ m)
    (h : oa_pos hashF off (2 ^ m) k i = oa_pos hashF off (2 ^ m) k j) : i = j := by
  unfold oa_pos at h
  rw [Nat.and_pow_two_sub_one_eq_mod, Nat.and_pow_two_sub_one_eq_mod] at h
  exact hoff m i j hi hj (Nat.ModEq.add_left_cancel' (hashF k) h)

/-- The first `2^m` probes visit every slot. -/
theorem oa_pos_surj {K : Type} (hashF : K → Nat) (off : Nat → Nat)
    (hoff : off_inj_mod off) (m : Nat) (k : K) (s : Nat) (hs : s < 2 ^ m) :
    ∃ j, j < 2 ^ m ∧ oa_pos hashF off (2 ^ m) k j = s := by
  have hinj : Function.Injective
      (fun j : Fin (2 ^ m) => (⟨oa_pos hashF off (2 ^ m) k j.1,
        oa_pos_lt hashF off m k j.1⟩ : Fin (2 ^ m))) := by
    intro a b hab
    exact Fin.ext (oa_pos_inj hashF off hoff m k a.2 b.2 (congrArg Fin.val hab))
  obtain ⟨j, hj⟩ := Finite.injective_iff_surjective.mp hinj ⟨s, hs⟩
  exact ⟨j.1, j.2, congrArg Fin.val hj⟩

/-- Reading a slot through `getD` at an in-range index. -/
theorem oa_slotAt_get {K V : Type} (t : OATable K V) (s : Nat)
    (h : s < t.slots.length) : oa_slotAt t s = t.slots.get ⟨s, h⟩ := by
  unfold oa_slotAt
  rw [List.getD_eq_getElem?_getD, List.getElem?_eq_getElem h]
  rfl

/-- Reading back the written slot. -/
theorem oa_set_slotAt_eq {K V : Type} (t : OATable K V) (s : Nat)
    (sl : OASlot K V) (h : s < t.slots.length) :
    oa_slotAt (oa_set t s sl) s = sl := by
  unfold oa_slotAt oa_set
  rw [List.getD_eq_getElem?_getD, List.getElem?_set_eq_of_lt _ h, Option.getD_some]

/-- Reading an untouched slot. -/
theorem oa_set_slotAt_ne {K V : Type} (t : OATable K V) (s s' : Nat)
    (sl : OASlot K V) (h : s' ≠ s) :
    oa_slotAt (oa_set t s sl) s' = oa_slotAt t s' := by
  unfold oa_slotAt oa_set
  rw [List.getD_eq_getElem?_getD, List.getElem?_set_ne (Ne.symm h),
      ← List.getD_eq_getElem?_getD]

/-- A table below capacity has an empty slot. -/
theorem exists_empty_slot {K V : Type} [DecidableEq K] [Inhabited K]
    (hashF : K → Nat) (off : Nat → Nat) (t : OATable K V)
    (hinv : OAInv hashF off t) (hroom : t.members < t.size) :
    ∃ s, s < t.size ∧ (oa_slotAt t s).key = Option.none := by
  obtain ⟨hlen, hp2, hhalf, hcount, huniq, hreach⟩ := hinv
  by_contra hc
  push_neg at hc
  have hall : ∀ sl ∈ t.slots, sl.key.isSome = true := by
    intro sl hsl
    obtain ⟨s, hs, hget⟩ := List.mem_iff_getElem.mp hsl
    have hlt : s < t.size := by omega
    have heq : oa_slotAt t s = sl := by
      rw [oa_slotAt_get t s (by omega)]
      simpa using hget
    rw [← heq]
    exact Option.isSome_iff_ne_none.mpr (hc s hlt)
  have h2 := List.countP_eq_length.mpr hall
  omega

/-- The stop predicate only stops at an empty slot or the key's slot. -/
theorem oa_stop_cases {K V : Type} [DecidableEq K] (t : OATable K V) (k : K)
    (s : Nat) (h : oa_stop t k s = true) :
    (oa_slotAt t s).key = Option.none ∨ (oa_slotAt t s).key = Option.some k := by
  unfold oa_stop at h
  cases hk : (oa_slotAt t s).key with
  | none => exact Or.inl rfl
  | some k2 =>
    simp only [hk] at h
    right
    exact congrArg Option.some (of_decide_eq_true h)

/-- The index returned by `oa_findJ` stops and is in range. -/
theorem oa_findJ_stop {K V : Type} [DecidableEq K] (hashF : K → Nat)
    (off : Nat → Nat) (t : OATable K V) (k : K) (j : Nat)
    (hf : oa_findJ hashF off t k = Option.some j) :
    oa_stop t k (oa_pos hashF off t.size k j) = true ∧ j < t.size := by
  unfold oa_findJ at hf
  have h1 := List.find?_some hf
  have h2 := List.mem_of_find?_eq_some hf
  exact ⟨h1, by simpa using h2⟩

/-- No early stop before the index `oa_findJ` returns. -/
theorem oa_findJ_min {K V : Type} [DecidableEq K] (hashF : K → Nat)
    (off : Nat → Nat) (t : OATable K V) (k : K) (j : Nat)
    (hf : oa_findJ hashF off t k = Option.some j) :
    ∀ i, i < j → oa_stop t k (oa_pos hashF off t.size k i) = false := by
  unfold oa_findJ at hf
  exact range_find?_min _ _ hf

/-- Under the invariant, the search for a stored key stops exactly at its
slot. -/
theorem oa_found_findJ {K V : Type} [DecidableEq K] [Inhabited K]
    (hashF : K → Nat) (off : Nat → Nat) (hoff : off_inj_mod off)
    (t : OATable K V) (hinv : OAInv hashF off t) (k : K) (s : Nat)
    (hs : s < t.size) (hk : (oa_slotAt t s).key = Option.some k) :
    ∃ j, j < t.size ∧ oa_findJ hashF off t k = Option.some j
      ∧ oa_pos hashF off t.size k j = s := by
  obtain ⟨hlen, hp2, hhalf, hcount, huniq, hreach⟩ := hinv
  obtain ⟨m, hm⟩ := oa_pow2_exists _ hp2
  have hksome : (oa_slotAt t s).key.isSome = true := by
    rw [hk]
    rfl
  obtain ⟨j0, hj0, hpos0, hocc⟩ := hreach s hs hksome
  have hkey_at : oa_key_at t s = k := by
    unfold oa_key_at
    rw [hk]
    rfl
  rw [hkey_at] at hpos0 hocc
  have hstop0 : oa_stop t k (oa_pos hashF off t.size k j0) = true := by
    unfold oa_stop
    rw [hpos0, hk]
    simp
  have hstopmin : ∀ i, i < j0 →
      oa_stop t k (oa_pos hashF off t.size k i) = false := by
    intro i hij
    have hocc_i := hocc i hij
    unfold oa_occupied at hocc_i
    unfold oa_stop
    cases hki : (oa_slotAt t (oa_pos hashF off t.size k i)).key with
    | none => exact absurd hocc_i (by simp [hki])
    | some k2 =>
      by_contra hcd
      rw [Bool.not_eq_false] at hcd
      have hk2 : k2 = k := of_decide_eq_true hcd
      subst hk2
      have hpi : oa_pos hashF off t.size k2 i < t.size := by
        rw [hm]
        exact oa_pos_lt hashF off m k2 i
      have heqs := huniq (oa_pos hashF off t.size k2 i) hpi s hs
        (by rw [hki]; rfl) (by rw [hki, hk])
      have : i = j0 := by
        refine oa_pos_inj hashF off hoff m k2 ?_ ?_ ?_
        · rw [← hm]
          omega
        · rw [← hm]
          omega
        · rw [← hm]
          rw [heqs, hpos0]
      omega
  refine ⟨j0, hj0, ?_, hpos0⟩
  unfold oa_findJ
  exact range_find?_unique hj0 hstop0 hstopmin

/-- Under the invariant, `oa_get` of a stored key reads its slot's value. -/
theorem oa_found_get {K V : Type} [DecidableEq K] [Inhabited K]
    (hashF : K → Nat) (off : Nat → Nat) (hoff : off_inj_mod off)
    (t : OATable K V) (hinv : OAInv hashF off t) (k : K) (s : Nat)
    (hs : s < t.size) (hk : (oa_slotAt t s).key = Option.some k) :
    oa_get hashF off t k = (oa_slotAt t s).val := by
  obtain ⟨j, hj, hfind, hpos⟩ := oa_found_findJ hashF off hoff t hinv k s hs hk
  unfold oa_get
  simp only [hfind]
  rw [hpos, if_pos hk]

/-- `oa_get` of an absent key is NULL. -/
theorem oa_absent_get {K V : Type} [DecidableEq K] [Inhabited K]
    (hashF : K → Nat) (off : Nat → Nat) (t : OATable K V)
    (hinv : OAInv hashF off t) (k : K)
    (habs : ∀ s, s < t.size → (oa_slotAt t s).key ≠ Option.some k) :
    oa_get hashF off t k = Option.none := by
  unfold oa_get
  cases hf : oa_findJ hashF off t k with
  | none => rfl
  | some j =>
    obtain ⟨hstop, hj⟩ := oa_findJ_stop hashF off t k j hf
    rcases oa_stop_cases t k _ hstop with hkey | hkey
    · simp only [hf]
      rw [if_neg (by rw [hkey]; intro hcon; cases hcon)]
    · obtain ⟨m, hm⟩ := oa_pow2_exists _ hinv.2.1
      have hpl : oa_pos hashF off t.size k j < t.size := by
        rw [hm]
        exact oa_pos_lt hashF off m k j
      exact absurd hkey (habs _ hpl)

/-- Every key is either stored at a unique in-range slot or absent. -/
theorem oa_present_or_absent {K V : Type} [DecidableEq K] (t : OATable K V)
    (k : K) :
    (∃ s, s < t.size ∧ (oa_slotAt t s).key = Option.some k)
      ∨ (∀ s, s < t.size → (oa_slotAt t s).key ≠ Option.some k) := by
  by_cases h : ∃ s, s < t.size ∧ (oa_slotAt t s).key = Option.some k
  · exact Or.inl h
  · right
    push_neg at h
    exact h

/-- Under the invariant with spare capacity, the probe search always
stops. -/
theorem oa_findJ_isSome {K V : Type} [DecidableEq K] [Inhabited K]
    (hashF : K → Nat) (off : Nat → Nat) (hoff : off_inj_mod off)
    (t : OATable K V) (hinv : OAInv hashF off t)
    (hroom : t.members < t.size) (k : K) :
    ∃ j, oa_findJ hashF off t k = Option.some j := by
  obtain ⟨s, hs, hempty⟩ := exists_empty_slot hashF off t hinv hroom
  obtain ⟨m, hm⟩ := oa_pow2_exists _ hinv.2.1
  obtain ⟨j, hj, hpos⟩ := oa_pos_surj hashF off hoff m k s (by rw [← hm]; exact hs)
  have hstop : oa_stop t k (oa_pos hashF off t.size k j) = true := by
    unfold oa_stop
    rw [hm, hpos, hempty]
  unfold oa_findJ
  exact range_find?_some_of_exists (show j < t.size by rw [hm]; exact hj) hstop

/-- Specification of the insertion loop when it claims an empty slot. -/
theorem oa_insert_fresh_spec {K V : Type} [DecidableEq K] [Inhabited K]
    (hashF : K → Nat) (off : Nat → Nat) (hoff : off_inj_mod off)
    (t : OATable K V) (hinv : OAInv hashF off t)
    (hroom : 2 * t.members + 2 ≤ t.size) (k : K) (v : Option V) (j : Nat)
    (hfj : oa_findJ hashF off t k = Option.some j)
    (hempty : (oa_slotAt t (oa_pos hashF off t.size k j)).key = Option.none)
    (r : OATable K V)
    (hr : r = { oa_set t (oa_pos hashF off t.size k j) ⟨Option.some k, v⟩ with
                members := t.members + 1 }) :
    OAInv hashF off r ∧ r.size = t.size ∧ oa_get hashF off r k = v
    ∧ (∀ k', k' ≠ k → oa_get hashF off r k' = oa_get hashF off t k')
    ∧ (∀ s, s < t.size → ∀ k'', (oa_slotAt r s).key = Option.some k'' →
        k'' = k ∨ (oa_slotAt t s).key = Option.some k'')
    ∧ r.members = t.members + 1 := by
  obtain ⟨hlen, hp2, hhalf, hcount, huniq, hreach⟩ := hinv
  obtain ⟨m, hm⟩ := oa_pow2_exists _ hp2
  have hinv' : OAInv hashF off t := ⟨hlen, hp2, hhalf, hcount, huniq, hreach⟩
  have hjlt : j < t.size := (oa_findJ_stop hashF off t k j hfj).2
  have hslt : oa_pos hashF off t.size k j < t.size := by
    rw [hm]
    exact oa_pos_lt hashF off m k j
  have hsltl : oa_pos hashF off t.size k j < t.slots.length := by omega
  have hrsize : r.size = t.size := by
    rw [hr]
    rfl
  have hrmem : r.members = t.members + 1 := by
    rw [hr]
  have hrslots : r.slots = t.slots.set (oa_pos hashF off t.size k j)
      ⟨Option.some k, v⟩ := by
    rw [hr]
    rfl
  have hrlen : r.slots.length = t.slots.length := by
    rw [hrslots]
    simp
  have hsAt : oa_slotAt r (oa_pos hashF off t.size k j) = ⟨Option.some k, v⟩ := by
    rw [hr]
    show oa_slotAt (oa_set t _ _) _ = _
    exact oa_set_slotAt_eq t _ _ hsltl
  have hothers : ∀ x, x ≠ oa_pos hashF off t.size k j →
      oa_slotAt r x = oa_slotAt t x := by
    intro x hx
    rw [hr]
    show oa_slotAt (oa_set t _ _) x = _
    exact oa_set_slotAt_ne t _ x _ hx
  have habs : ∀ s', s' < t.size → (oa_slotAt t s').key ≠ Option.some k := by
    intro s' hs' hcon
    obtain ⟨j', hj', hfj', hpos'⟩ :=
      oa_found_findJ hashF off hoff t hinv' k s' hs' hcon
    rw [hfj] at hfj'
    have hjeq : j = j' := Option.some.inj hfj'
    subst hjeq
    rw [hpos'] at hempty
    rw [hempty] at hcon
    cases hcon
  have hocc_mono : ∀ x, oa_occupied t x = true → oa_occupied r x = true := by
    intro x hx
    by_cases hxe : x = oa_pos hashF off t.size k j
    · subst hxe
      unfold oa_occupied at hx
      rw [hempty] at hx
      simp at hx
    · unfold oa_occupied at hx ⊢
      rw [hothers x hxe]
      exact hx
  have hInvR : OAInv hashF off r := by
    refine ⟨?_, ?_, ?_, ?_, ?_, ?_⟩
    · rw [hrlen, hrsize]
      exact hlen
    · rw [hrsize]
      exact hp2
    · rw [hrsize, hrmem]
      omega
    · have hc := countP_set (fun sl => sl.key.isSome) t.slots
        (oa_pos hashF off t.size k j) ⟨Option.some k, v⟩ hsltl
      have hget : t.slots.get ⟨oa_pos hashF off t.size k j, hsltl⟩
          = oa_slotAt t (oa_pos hashF off t.size k j) :=
        (oa_slotAt_get t _ hsltl).symm
      rw [hget] at hc
      simp only [hempty, Option.isSome_none, Bool.false_eq_true, if_false,
        Option.isSome_some, if_true] at hc
      rw [hrmem, hrslots, hcount]
      omega
    · intro s1 hs1 s2 hs2 hsome1 heq
      rw [hrsize] at hs1 hs2
      by_cases e1 : s1 = oa_pos hashF off t.size k j
      · by_cases e2 : s2 = oa_pos hashF off t.size k j
        · rw [e1, e2]
        · exfalso
          rw [e1, hsAt] at heq
          rw [hothers s2 e2] at heq
          exact habs s2 hs2 heq.symm
      · by_cases e2 : s2 = oa_pos hashF off t.size k j
        · exfalso
          rw [e2, hsAt] at heq
          rw [hothers s1 e1] at heq
          exact habs s1 hs1 heq
        · rw [hothers s1 e1] at hsome1
          rw [hothers s1 e1, hothers s2 e2] at heq
          exact huniq s1 hs1 s2 hs2 hsome1 heq
    · intro s0 hs0 hsome0
      rw [hrsize] at hs0 ⊢
      by_cases e0 : s0 = oa_pos hashF off t.size k j
      · subst e0
        have hka : oa_key_at r (oa_pos hashF off t.size k j) = k := by
          unfold oa_key_at
          rw [hsAt]
          rfl
        rw [hka]
        refine ⟨j, hjlt, rfl, ?_⟩
        intro i hij
        have hstopf := oa_findJ_min hashF off t k j hfj i hij
        have hocc_t : oa_occupied t (oa_pos hashF off t.size k i) = true := by
          unfold oa_occupied
          unfold oa_stop at hstopf
          cases hkx : (oa_slotAt t (oa_pos hashF off t.size k i)).key with
          | none => simp [hkx] at hstopf
          | some k2 => simp [hkx]
        exact hocc_mono _ hocc_t
      · have hsome_t : (oa_slotAt t s0).key.isSome = true := by
          rw [← hothers s0 e0]
          exact hsome0
        obtain ⟨j0, hj0, hpos0, hocc0⟩ := hreach s0 hs0 hsome_t
        have hka : oa_key_at r s0 = oa_key_at t s0 := by
          unfold oa_key_at
          rw [hothers s0 e0]
        rw [hka]
        exact ⟨j0, hj0, hpos0, fun i hi => hocc_mono _ (hocc0 i hi)⟩
  have hget : oa_get hashF off r k = v := by
    have hval := oa_found_get hashF off hoff r hInvR k
      (oa_pos hashF off t.size k j) (by rw [hrsize]; exact hslt)
      (by rw [hsAt])
    rw [hval, hsAt]
  refine ⟨hInvR, hrsize, hget, ?_, ?_, hrmem⟩
  · intro k' hk'
    rcases oa_present_or_absent t k' with ⟨s2, hs2, hk2⟩ | habs'
    · have hne : s2 ≠ oa_pos hashF off t.size k j := by
        intro hc
        rw [hc, hempty] at hk2
        cases hk2
      have h1 := oa_found_get hashF off hoff t hinv' k' s2 hs2 hk2
      have h2 := oa_found_get hashF off hoff r hInvR k' s2
        (by rw [hrsize]; exact hs2) (by rw [hothers s2 hne]; exact hk2)
      rw [h1, h2, hothers s2 hne]
    · have h1 := oa_absent_get hashF off t hinv' k' habs'
      have h2 : ∀ s', s' < r.size → (oa_slotAt r s').key ≠ Option.some k' := by
        intro s' hs' hcon
        rw [hrsize] at hs'
        by_cases e : s' = oa_pos hashF off t.size k j
        · rw [e, hsAt] at hcon
          exact hk' (Option.some.inj hcon).symm
        · rw [hothers s' e] at hcon
          exact habs' s' hs' hcon
      rw [oa_absent_get hashF off r hInvR k' h2, h1]
  · intro s hs k'' hks
    by_cases e : s = oa_pos hashF off t.size k j
    · rw [e, hsAt] at hks
      exact Or.inl (Option.some.inj hks).symm
    · rw [hothers s e] at hks
      exact Or.inr hks

/-- Specification of the insertion loop when it overwrites the key's slot. -/
theorem oa_overwrite_spec {K V : Type} [DecidableEq K] [Inhabited K]
    (hashF : K → Nat) (off : Nat → Nat) (hoff : off_inj_mod off)
    (t : OATable K V) (hinv : OAInv hashF off t) (k : K) (v : Option V) (j : Nat)
    (hfj : oa_findJ hashF off t k = Option.some j)
    (hkey : (oa_slotAt t (oa_pos hashF off t.size k j)).key = Option.some k)
    (r : OATable K V)
    (hr : r = oa_set t (oa_pos hashF off t.size k j)
        ⟨(oa_slotAt t (oa_pos hashF off t.size k j)).key, v⟩) :
    OAInv hashF off r ∧ r.size = t.size ∧ oa_get hashF off r k = v
    ∧ (∀ k', k' ≠ k → oa_get hashF off r k' = oa_get hashF off t k')
    ∧ (∀ s, s < t.size → ∀ k'', (oa_slotAt r s).key = Option.some k'' →
        k'' = k ∨ (oa_slotAt t s).key = Option.some k'')
    ∧ r.members = t.members := by
  obtain ⟨hlen, hp2, hhalf, hcount, huniq, hreach⟩ := hinv
  obtain ⟨m, hm⟩ := oa_pow2_exists _ hp2
  have hinv' : OAInv hashF off t := ⟨hlen, hp2, hhalf, hcount, huniq, hreach⟩
  have hslt : oa_pos hashF off t.size k j < t.size := by
    rw [hm]
    exact oa_pos_lt hashF off m k j
  have hsltl : oa_pos hashF off t.size k j < t.slots.length := by omega
  have hrsize : r.size = t.size := by
    rw [hr]
    rfl
  have hrmem : r.members = t.members := by
    rw [hr]
    rfl
  have hrslots : r.slots = t.slots.set (oa_pos hashF off t.size k j)
      ⟨(oa_slotAt t (oa_pos hashF off t.size k j)).key, v⟩ := by
    rw [hr]
    rfl
  have hrlen : r.slots.length = t.slots.length := by
    rw [hrslots]
    simp
  have hsAt : oa_slotAt r (oa_pos hashF off t.size k j) = ⟨Option.some k, v⟩ := by
    rw [hr, hkey]
    exact oa_set_slotAt_eq t _ _ hsltl
  have hothers : ∀ x, x ≠ oa_pos hashF off t.size k j →
      oa_slotAt r x = oa_slotAt t x := by
    intro x hx
    rw [hr]
    exact oa_set_slotAt_ne t _ x _ hx
  have hkeys : ∀ x, (oa_slotAt r x).key = (oa_slotAt t x).key := by
    intro x
    by_cases e : x = oa_pos hashF off t.size k j
    · rw [e, hsAt, hkey]
    · rw [hothers x e]
  have hInvR : OAInv hashF off r := by
    refine ⟨?_, ?_, ?_, ?_, ?_, ?_⟩
    · rw [hrlen, hrsize]
      exact hlen
    · rw [hrsize]
      exact hp2
    · rw [hrsize, hrmem]
      omega
    · have hc := countP_set (fun sl => sl.key.isSome) t.slots
        (oa_pos hashF off t.size k j)
        ⟨(oa_slotAt t (oa_pos hashF off t.size k j)).key, v⟩ hsltl
      have hget : t.slots.get ⟨oa_pos hashF off t.size k j, hsltl⟩
          = oa_slotAt t (oa_pos hashF off t.size k j) :=
        (oa_slotAt_get t _ hsltl).symm
      rw [hget] at hc
      simp only [hkey, Option.isSome_some, if_true] at hc
      rw [hrmem, hrslots, hkey, hcount]
      omega
    · intro s1 hs1 s2 hs2 hsome1 heq
      rw [hrsize] at hs1 hs2
      rw [hkeys s1] at hsome1
      rw [hkeys s1, hkeys s2] at heq
      exact huniq s1 hs1 s2 hs2 hsome1 heq
    · intro s0 hs0 hsome0
      rw [hrsize] at hs0 ⊢
      rw [hkeys s0] at hsome0
      obtain ⟨j0, hj0, hpos0, hocc0⟩ := hreach s0 hs0 hsome0
      have hka : oa_key_at r s0 = oa_key_at t s0 := by
        unfold oa_key_at
        rw [hkeys s0]
      rw [hka]
      refine ⟨j0, hj0, hpos0, ?_⟩
      intro i hi
      have := hocc0 i hi
      unfold oa_occupied at this ⊢
      rw [hkeys _]
      exact this
  have hget : oa_get hashF off r k = v := by
    have hval := oa_found_get hashF off hoff r hInvR k
      (oa_pos hashF off t.size k j) (by rw [hrsize]; exact hslt)
      (by rw [hsAt])
    rw [hval, hsAt]
  refine ⟨hInvR, hrsize, hget, ?_, ?_, hrmem⟩
  · intro k' hk'
    rcases oa_present_or_absent t k' with ⟨s2, hs2, hk2⟩ | habs'
    · have hne : s2 ≠ oa_pos hashF off t.size k j := by
        intro hc
        rw [hc, hkey] at hk2
        exact hk' (Option.some.inj hk2).symm
      have h1 := oa_found_get hashF off hoff t hinv' k' s2 hs2 hk2
      have h2 := oa_found_get hashF off hoff r hInvR k' s2
        (by rw [hrsize]; exact hs2) (by rw [hothers s2 hne]; exact hk2)
      rw [h1, h2, hothers s2 hne]
    · have h1 := oa_absent_get hashF off t hinv' k' habs'
      have h2 : ∀ s', s' < r.size → (oa_slotAt r s').key ≠ Option.some k' := by
        intro s' hs' hcon
        rw [hrsize] at hs'
        rw [hkeys s'] at hcon
        exact habs' s' hs' hcon
      rw [oa_absent_get hashF off r hInvR k' h2, h1]
  · intro s hs k'' hks
    rw [hkeys s] at hks
    exact Or.inr hks

/-- Specification of `oa_put_core` on a table strictly below half load. -/
theorem oa_put_core_spec {K V : Type} [DecidableEq K] [Inhabited K]
    (hashF : K → Nat) (off : Nat → Nat) (hoff : off_inj_mod off)
    (t : OATable K V) (hinv : OAInv hashF off t)
    (hroom : 2 * t.members + 2 ≤ t.size) (k : K) (v : Option V) :
    OAInv hashF off (oa_put_core hashF off t k v).1
    ∧ (oa_put_core hashF off t k v).1.size = t.size
    ∧ oa_get hashF off (oa_put_core hashF off t k v).1 k = v
    ∧ (∀ k', k' ≠ k → oa_get hashF off (oa_put_core hashF off t k v).1 k'
        = oa_get hashF off t k')
    ∧ (∀ s, s < t.size → ∀ k'',
        (oa_slotAt (oa_put_core hashF off t k v).1 s).key = Option.some k'' →
        k'' = k ∨ (oa_slotAt t s).key = Option.some k'')
    ∧ ((∀ s, s < t.size → (oa_slotAt t s).key ≠ Option.some k) →
        (oa_put_core hashF off t k v).1.members = t.members + 1)
    ∧ (oa_put_core hashF off t k v).1.members ≤ t.members + 1 := by
  have hroom' : t.members < t.size := by omega
  obtain ⟨j, hfj⟩ := oa_findJ_isSome hashF off hoff t hinv hroom' k
  obtain ⟨hstop, hjlt⟩ := oa_findJ_stop hashF off t k j hfj
  obtain ⟨m, hm⟩ := oa_pow2_exists _ hinv.2.1
  have hslt : oa_pos hashF off t.size k j < t.size := by
    rw [hm]
    exact oa_pos_lt hashF off m k j
  rcases oa_stop_cases t k _ hstop with hempty | hkey
  · have hT : (oa_put_core hashF off t k v).1
        = { oa_set t (oa_pos hashF off t.size k j) ⟨Option.some k, v⟩ with
            members := t.members + 1 } := by
      unfold oa_put_core
      simp only [hfj, hempty]
    obtain ⟨a, b, c, d, e, f⟩ := oa_insert_fresh_spec hashF off hoff t hinv
      hroom k v j hfj hempty _ hT
    exact ⟨a, b, c, d, e, fun _ => f, by omega⟩
  · have hT : (oa_put_core hashF off t k v).1
        = oa_set t (oa_pos hashF off t.size k j)
            ⟨(oa_slotAt t (oa_pos hashF off t.size k j)).key, v⟩ := by
      unfold oa_put_core
      simp only [hfj, hkey]
    obtain ⟨a, b, c, d, e, f⟩ := oa_overwrite_spec hashF off hoff t hinv
      k v j hfj hkey _ hT
    refine ⟨a, b, c, d, e, ?_, by omega⟩
    intro habs
    exact absurd hkey (habs _ hslt)

/-- The reinsertion fold of `oa_rehash`: folding distinct, fresh keys into a
well-formed accumulator with room preserves the invariant, adds exactly the
occupied slots to the member count, and gives lookups that see the reinserted
bindings and fall through to the accumulator otherwise. -/
theorem oa_rehash_fold_spec {K V : Type} [DecidableEq K] [Inhabited K]
    (hashF : K → Nat) (off : Nat → Nat) (hoff : off_inj_mod off) :
    ∀ (ls : List (OASlot K V)) (acc : OATable K V),
      OAInv hashF off acc →
      2 * (acc.members + ls.countP (fun sl => sl.key.isSome)) ≤ acc.size →
      (∀ sl ∈ ls, ∀ k : K, sl.key = Option.some k →
        ∀ s, s < acc.size → (oa_slotAt acc s).key ≠ Option.some k) →
      ls.Pairwise (fun a b => ∀ k : K, a.key = Option.some k →
        b.key ≠ Option.some k) →
      OAInv hashF off (ls.foldl (fun acc2 sl =>
          match sl.key with
          | Option.some k => (oa_put_core hashF off acc2 k sl.val).1
          | Option.none => acc2) acc)
      ∧ (ls.foldl (fun acc2 sl =>
          match sl.key with
          | Option.some k => (oa_put_core hashF off acc2 k sl.val).1
          | Option.none => acc2) acc).size = acc.size
      ∧ (ls.foldl (fun acc2 sl =>
          match sl.key with
          | Option.some k => (oa_put_core hashF off acc2 k sl.val).1
          | Option.none => acc2) acc).members
        = acc.members + ls.countP (fun sl => sl.key.isSome)
      ∧ (∀ sl ∈ ls, ∀ k : K, sl.key = Option.some k →
          oa_get hashF off (ls.foldl (fun acc2 sl =>
            match sl.key with
            | Option.some k => (oa_put_core hashF off acc2 k sl.val).1
            | Option.none => acc2) acc) k = sl.val)
      ∧ (∀ k : K, (∀ sl ∈ ls, sl.key ≠ Option.some k) →
          oa_get hashF off (ls.foldl (fun acc2 sl =>
            match sl.key with
            | Option.some k => (oa_put_core hashF off acc2 k sl.val).1
            | Option.none => acc2) acc) k = oa_get hashF off acc k) := by
  intro ls
  induction ls with
  | nil =>
    intro acc hinv hbound hdisj hnodup
    refine ⟨hinv, rfl, by simp, ?_, fun k _ => rfl⟩
    intro sl hmem
    cases hmem
  | cons sl ls IH =>
    intro acc hinv hbound hdisj hnodup
    rw [List.foldl_cons]
    cases hk : sl.key with
    | none =>
      simp only [hk]
      have hcnt : (sl :: ls).countP (fun sl => sl.key.isSome)
          = ls.countP (fun sl => sl.key.isSome) := by
        rw [List.countP_cons]
        simp [hk]
      obtain ⟨a, b, c, d, e⟩ := IH acc hinv (by rw [hcnt] at hbound; exact hbound)
        (fun sl2 h2 => hdisj sl2 (List.mem_cons_of_mem sl h2))
        (List.Pairwise.sublist (List.sublist_cons_self sl ls) hnodup)
      refine ⟨a, b, ?_, ?_, ?_⟩
      · rw [c, hcnt]
      · intro sl2 hmem k2 hk2
        rcases List.mem_cons.mp hmem with rfl | hmem2
        · rw [hk] at hk2
          cases hk2
        · exact d sl2 hmem2 k2 hk2
      · intro k2 hnone
        exact e k2 (fun sl2 h2 => hnone sl2 (List.mem_cons_of_mem sl h2))
    | some k0 =>
      simp only [hk]
      have hcnt : (sl :: ls).countP (fun sl => sl.key.isSome)
          = ls.countP (fun sl => sl.key.isSome) + 1 := by
        rw [List.countP_cons]
        simp [hk]
      rw [hcnt] at hbound
      have habs0 := hdisj sl (List.mem_cons_self sl ls) k0 hk
      have hroom0 : 2 * acc.members + 2 ≤ acc.size := by omega
      obtain ⟨pInv, pSize, pGet, pOther, pExt, pFresh, pLe⟩ :=
        oa_put_core_spec hashF off hoff acc hinv hroom0 k0 sl.val
      have pMem : (oa_put_core hashF off acc k0 sl.val).1.members
          = acc.members + 1 := pFresh habs0
      have hnodup_head := List.pairwise_cons.mp hnodup
      obtain ⟨hhead, htail⟩ := hnodup_head
      have hdisj' : ∀ sl2 ∈ ls, ∀ k2 : K, sl2.key = Option.some k2 →
          ∀ s, s < (oa_put_core hashF off acc k0 sl.val).1.size →
          (oa_slotAt (oa_put_core hashF off acc k0 sl.val).1 s).key
            ≠ Option.some k2 := by
        intro sl2 h2 k2 hk2 s hs hcon
        rw [pSize] at hs
        rcases pExt s hs k2 hcon with heq | hold
        · exact hhead sl2 h2 k0 hk (by rw [hk2, heq])
        · exact hdisj sl2 (List.mem_cons_of_mem sl h2) k2 hk2 s hs hold
      obtain ⟨a, b, c, d, e⟩ := IH (oa_put_core hashF off acc k0 sl.val).1 pInv
        (by rw [pSize, pMem]; omega) hdisj' htail
      refine ⟨a, ?_, ?_, ?_, ?_⟩
      · rw [b, pSize]
      · rw [c, pMem, hcnt]
        omega
      · intro sl2 hmem k2 hk2
        rcases List.mem_cons.mp hmem with rfl | hmem2
        · have hk02 : k2 = k0 := by
            rw [hk] at hk2
            exact (Option.some.inj hk2).symm
          subst hk02
          rw [e k2 (fun sl3 h3 hc3 => hhead sl3 h3 k2 hk hc3)]
          exact pGet
        · exact d sl2 hmem2 k2 hk2
      · intro k2 hnone
        have hne : k2 ≠ k0 := by
          intro hc
          exact hnone sl (List.mem_cons_self sl ls) (by rw [hk, hc])
        rw [e k2 (fun sl2 h2 => hnone sl2 (List.mem_cons_of_mem sl h2))]
        exact pOther k2 hne

/-- The slot read from the fresh table is empty. -/
theorem oa_slotAt_replicate {K V : Type} (n : Nat) (s : Nat) :
    oa_slotAt (oa_fresh (K := K) (V := V) n) s = ⟨Option.none, Option.none⟩ := by
  unfold oa_slotAt oa_fresh
  by_cases h : s < n
  · rw [List.getD_eq_getElem?_getD, List.getElem?_eq_getElem (by simpa using h)]
    simp
  · rw [List.getD_eq_getElem?_getD, List.getElem?_eq_none (by simpa using h)]
    rfl

/-- Specification of `oa_rehash`: the capacity doubles, the member count is
unchanged, the invariant holds again, and every lookup is preserved. -/
theorem oa_rehash_spec {K V : Type} [DecidableEq K] [Inhabited K]
    (hashF : K → Nat) (off : Nat → Nat) (hoff : off_inj_mod off)
    (t : OATable K V) (hinv : OAInv hashF off t) :
    OAInv hashF off (oa_rehash hashF off t)
    ∧ (oa_rehash hashF off t).size = 2 * t.size
    ∧ (oa_rehash hashF off t).members = t.members
    ∧ ∀ k : K, oa_get hashF off (oa_rehash hashF off t) k
        = oa_get hashF off t k := by
  obtain ⟨hlen, hp2, hhalf, hcount, huniq, hreach⟩ := hinv
  have hinv' : OAInv hashF off t := ⟨hlen, hp2, hhalf, hcount, huniq, hreach⟩
  have hinv0 : OAInv hashF off (oa_fresh (K := K) (V := V) (2 * t.size)) := by
    refine ⟨by simp [oa_fresh], ?_, by simp [oa_fresh], ?_, ?_, ?_⟩
    · show oa_pow2 (2 * t.size) = true
      exact oa_pow2_double _ hp2
    · refine (List.countP_eq_zero.mpr ?_).symm
      intro sl hsl
      have hsl2 : sl ∈ List.replicate (2 * t.size)
          (⟨Option.none, Option.none⟩ : OASlot K V) := hsl
      rw [List.eq_of_mem_replicate hsl2]
      simp
    · intro s1 hs1 s2 hs2 hsome1 heq
      rw [oa_slotAt_replicate] at hsome1
      simp at hsome1
    · intro s hs hsome
      rw [oa_slotAt_replicate] at hsome
      simp at hsome
  have habs0 : ∀ k : K, ∀ s, s < 2 * t.size →
      (oa_slotAt (oa_fresh (K := K) (V := V) (2 * t.size)) s).key
        ≠ Option.some k := by
    intro k s hs hcon
    rw [oa_slotAt_replicate] at hcon
    cases hcon
  have hnodup : t.slots.Pairwise (fun a b => ∀ k : K, a.key = Option.some k →
      b.key ≠ Option.some k) := by
    rw [List.pairwise_iff_getElem]
    intro i j hi hj hij k hki hkj
    have hslot_i : oa_slotAt t i = t.slots[i] := by
      rw [oa_slotAt_get t i (by omega)]
      simp
    have hslot_j : oa_slotAt t j = t.slots[j] := by
      rw [oa_slotAt_get t j (by omega)]
      simp
    have heq : i = j := by
      refine huniq i (by omega) j (by omega) ?_ ?_
      · rw [hslot_i, hki]
        rfl
      · rw [hslot_i, hslot_j, hki, hkj]
    omega
  obtain ⟨a, b, c, d, e⟩ := oa_rehash_fold_spec hashF off hoff t.slots
    (oa_fresh (K := K) (V := V) (2 * t.size))
    hinv0
    (by show 2 * (0 + t.slots.countP (fun sl => sl.key.isSome)) ≤ 2 * t.size
        rw [← hcount]
        omega)
    (fun sl hsl k hk s hs => habs0 k s hs)
    hnodup
  have hmem_eq : (oa_rehash hashF off t).members = t.members := by
    have c2 : (oa_rehash hashF off t).members
        = 0 + t.slots.countP (fun sl => sl.key.isSome) := c
    rw [c2, ← hcount]
    omega
  refine ⟨a, b, hmem_eq, ?_⟩
  intro k
  rcases oa_present_or_absent t k with ⟨s2, hs2, hk2⟩ | habs
  · have hmem : oa_slotAt t s2 ∈ t.slots := by
      rw [oa_slotAt_get t s2 (by omega)]
      exact List.get_mem t.slots _ _
    exact (d (oa_slotAt t s2) hmem k hk2).trans
      (oa_found_get hashF off hoff t hinv' k s2 hs2 hk2).symm
  · have hnone : ∀ sl ∈ t.slots, sl.key ≠ Option.some k := by
      intro sl hsl hcon
      obtain ⟨s, hs, hget⟩ := List.mem_iff_getElem.mp hsl
      have hsl2 : oa_slotAt t s = sl := by
        rw [oa_slotAt_get t s (by omega)]
        simpa using hget
      exact habs s (by omega) (by rw [hsl2]; exact hcon)
    have h0get : oa_get hashF off (oa_fresh (K := K) (V := V) (2 * t.size)) k
        = Option.none :=
      oa_absent_get hashF off _ hinv0 k
        (fun s hs => habs0 k s (by simpa [oa_fresh] using hs))
    exact (e k hnone).trans
      (h0get.trans (oa_absent_get hashF off t hinv' k habs).symm)

/-- A power of two is positive. -/
theorem oa_pow2_ge_one (n : Nat) (h : oa_pow2 n = true) : 1 ≤ n := by
  obtain ⟨m, hm⟩ := oa_pow2_exists n h
  rw [hm]
  exact Nat.one_le_two_pow

/-- Specification of `oa_put`: the invariant is preserved; when the load
factor reaches ½ the capacity doubles (else it is unchanged) and the put is
the rehash followed by the plain insertion; the new binding is stored and
every other key's binding is preserved. -/
theorem oa_put_spec {K V : Type} [DecidableEq K] [Inhabited K]
    (hashF : K → Nat) (off : Nat → Nat) (hoff : off_inj_mod off)
    (t : OATable K V) (hinv : OAInv hashF off t) (k : K) (v : Option V) :
    OAInv hashF off (oa_put hashF off t k v).1
    ∧ (t.members ≥ t.size / 2 →
        oa_put hashF off t k v
          = oa_put_core hashF off (oa_rehash hashF off t) k v
        ∧ (oa_put hashF off t k v).1.size = 2 * t.size
        ∧ (∀ k' : K, oa_get hashF off (oa_rehash hashF off t) k'
            = oa_get hashF off t k'))
    ∧ (t.members < t.size / 2 → (oa_put hashF off t k v).1.size = t.size)
    ∧ oa_get hashF off (oa_put hashF off t k v).1 k = v
    ∧ (∀ k', k' ≠ k → oa_get hashF off (oa_put hashF off t k v).1 k'
        = oa_get hashF off t k') := by
  have hhalf : 2 * t.members ≤ t.size := hinv.2.2.1
  have hpos : 1 ≤ t.size := oa_pow2_ge_one _ hinv.2.1
  by_cases hre : t.members ≥ t.size / 2
  · have hT : oa_put hashF off t k v
        = oa_put_core hashF off (oa_rehash hashF off t) k v := by
      unfold oa_put
      rw [if_pos hre]
    obtain ⟨a, b, c, d⟩ := oa_rehash_spec hashF off hoff t hinv
    have hroom1 : 2 * (oa_rehash hashF off t).members + 2
        ≤ (oa_rehash hashF off t).size := by
      rw [b, c]
      omega
    obtain ⟨p1, p2, p3, p4, p5, p6, p7⟩ :=
      oa_put_core_spec hashF off hoff (oa_rehash hashF off t) a hroom1 k v
    refine ⟨by rw [hT]; exact p1, fun _ => ⟨hT, by rw [hT, p2, b], d⟩,
      fun hlt => absurd hre (by omega), by rw [hT]; exact p3, ?_⟩
    intro k' hk'
    rw [hT, p4 k' hk', d k']
  · have hT : oa_put hashF off t k v = oa_put_core hashF off t k v := by
      unfold oa_put
      rw [if_neg hre]
    have hroom1 : 2 * t.members + 2 ≤ t.size := by
      have hlt : t.members < t.size / 2 := by omega
      omega
    obtain ⟨p1, p2, p3, p4, p5, p6, p7⟩ :=
      oa_put_core_spec hashF off hoff t hinv hroom1 k v
    exact ⟨by rw [hT]; exact p1, fun hge => absurd hge hre,
      fun _ => by rw [hT]; exact p2, by rw [hT]; exact p3,
      fun k' hk' => by rw [hT]; exact p4 k' hk'⟩

/-- C6: For each of the three open-addressing maps (`hash_put`,
`shash_put`, `ihash_put`), a put that finds the member count at or above
half the capacity first doubles the capacity (keeping it a power of two)
and reinserts every stored entry — every lookup into the rehashed table is
unchanged — before storing the new binding through the ordinary insertion;
and after any put the stored key maps to the new value while every other
key still maps to its most recently stored value. -/
theorem open_addressing_put_spec {V : Type}
    (t : OATable Nat V) (hinv : OAInv mix_bits_64 tri t) (k : Nat) (v : V)
    (ts : OATable (List Nat) V) (hinvs : OAInv shash_hash id ts)
    (ks : List Nat) (vs : V)
    (hi : IHash V) (hinvi : IHInv hi) (ki : Nat) (vi : V) :
    (OAInv mix_bits_64 tri (hash_put t k (Option.some v)).1
     ∧ (t.members ≥ t.size / 2 →
         hash_put t k (Option.some v)
           = oa_put_core mix_bits_64 tri (oa_rehash mix_bits_64 tri t) k
               (Option.some v)
         ∧ (hash_put t k (Option.some v)).1.size = 2 * t.size
         ∧ oa_pow2 (hash_put t k (Option.some v)).1.size = true
         ∧ (∀ k', hash_get (oa_rehash mix_bits_64 tri t) k' = hash_get t k'))
     ∧ hash_get (hash_put t k (Option.some v)).1 k = Option.some v
     ∧ (∀ k', k' ≠ k →
         hash_get (hash_put t k (Option.some v)).1 k' = hash_get t k'))
    ∧ (OAInv shash_hash id (shash_put ts ks (Option.some vs)).1
     ∧ (ts.members ≥ ts.size / 2 →
         shash_put ts ks (Option.some vs)
           = oa_put_core shash_hash id (oa_rehash shash_hash id ts) ks
               (Option.some vs)
         ∧ (shash_put ts ks (Option.some vs)).1.size = 2 * ts.size
         ∧ oa_pow2 (shash_put ts ks (Option.some vs)).1.size = true
         ∧ (∀ k', shash_get (oa_rehash shash_hash id ts) k' = shash_get ts k'))
     ∧ shash_get (shash_put ts ks (Option.some vs)).1 ks = Option.some vs
     ∧ (∀ k', k' ≠ ks →
         shash_get (shash_put ts ks (Option.some vs)).1 k' = shash_get ts k'))
    ∧ (IHInv (ihash_put hi ki (Option.some vi))
     ∧ (hi.tab.members ≥ hi.tab.size / 2 →
         (ihash_put hi ki (Option.some vi)).tab.size = 2 * hi.tab.size
         ∧ oa_pow2 (ihash_put hi ki (Option.some vi)).tab.size = true
         ∧ (∀ k', oa_get ihash_mix id (oa_rehash ihash_mix id hi.tab) k'
             = oa_get ihash_mix id hi.tab k'))
     ∧ (ihash_get (ihash_put hi ki (Option.some vi)) ki).1 = Option.some vi
     ∧ (∀ k', k' ≠ ki →
         (ihash_get (ihash_put hi ki (Option.some vi)) k').1
           = (ihash_get hi k').1)) := by
  obtain ⟨q1, q2, q3, q4, q5⟩ :=
    oa_put_spec mix_bits_64 tri off_inj_mod_tri t hinv k (Option.some v)
  obtain ⟨r1, r2, r3, r4, r5⟩ :=
    oa_put_spec shash_hash id off_inj_mod_id ts hinvs ks (Option.some vs)
  obtain ⟨w1, w2, w3, w4, w5⟩ :=
    oa_put_spec ihash_mix id off_inj_mod_id hi.tab hinvi.1 ki (Option.some vi)
  refine ⟨⟨q1, fun hge => ?_, q4, fun k' hk' => q5 k' hk'⟩,
    ⟨r1, fun hge => ?_, r4, fun k' hk' => r5 k' hk'⟩,
    ⟨w1, fun _ => w4.symm⟩, fun hge => ?_, ?_, fun k' hk' => ?_⟩
  · obtain ⟨ha, hb, hc⟩ := q2 hge
    exact ⟨ha, hb, q1.2.1, hc⟩
  · obtain ⟨ha, hb, hc⟩ := r2 hge
    exact ⟨ha, hb, r1.2.1, hc⟩
  · obtain ⟨ha, hb, hc⟩ := w2 hge
    exact ⟨hb, w1.2.1, hc⟩
  · unfold ihash_get
    split
    · show (ihash_put hi ki (Option.some vi)).cacheval = Option.some vi
      rfl
    · exact w4
  · have h1 : (ihash_get (ihash_put hi ki (Option.some vi)) k').1
        = oa_get ihash_mix id hi.tab k' := by
      unfold ihash_get
      rw [if_neg (fun hc => hk' hc.2)]
      exact w5 k' hk'
    have h2 : (ihash_get hi k').1 = oa_get ihash_mix id hi.tab k' := by
      by_cases h0 : 0 < hi.tab.members ∧ k' = hi.cachekey
      · unfold ihash_get
        rw [if_pos h0]
        show hi.cacheval = _
        rw [h0.2]
        exact hinvi.2 h0.1
      · unfold ihash_get
        rw [if_neg h0]
    exact h1.trans h2.symm

theorem open_addressing_put_spec_witness :
    (OAInv mix_bits_64 tri (oa_new Nat Nat 1)
      ∧ OAInv shash_hash id (oa_new (List Nat) Nat 1)
      ∧ IHInv (IHash.mk (oa_new Nat Nat 1) 0 Option.none))
    ∧ hash_get (hash_put (oa_new Nat Nat 1) 0 (Option.some 7)).1 0
        = Option.some 7 :=
  ⟨⟨by decide, ⟨by decide, by decide, by decide, by decide, by decide, by decide⟩,
    by decide⟩,
   (open_addressing_put_spec (oa_new Nat Nat 1) (by decide) 0 7
      (oa_new (List Nat) Nat 1)
      ⟨by decide, by decide, by decide, by decide, by decide, by decide⟩ [1] 8
      (IHash.mk (oa_new Nat Nat 1) 0 Option.none) (by decide) 2 9).1.2.2.1⟩

/-- The slot list a write produces. -/
theorem oa_set_slots {K V : Type} (t : OATable K V) (s : Nat)
    (sl : OASlot K V) : (oa_set t s sl).slots = t.slots.set s sl := rfl

/-- On a stored key, `oa_delete` NULLs the value of that key's slot and
nothing else. -/
theorem oa_delete_found {K V : Type} [DecidableEq K] [Inhabited K]
    (hashF : K → Nat) (off : Nat → Nat) (hoff : off_inj_mod off)
    (t : OATable K V) (hinv : OAInv hashF off t) (k : K) (s : Nat)
    (hs : s < t.size) (hk : (oa_slotAt t s).key = Option.some k) :
    oa_delete hashF off t k
      = oa_set t s ⟨Option.some k, Option.none⟩ := by
  obtain ⟨j, hj, hfj, hpos⟩ := oa_found_findJ hashF off hoff t hinv k s hs hk
  unfold oa_delete
  simp only [hfj, hpos, hk]

/-- Specification of `oa_delete` on a stored key: the lookup of the key
becomes NULL; the capacity, the member count, every slot's key and every
other key's lookup are unchanged; the deleted key's slot keeps its key;
the iteration pairs never mention the key; and the invariant holds. -/
theorem oa_delete_spec {K V : Type} [DecidableEq K] [Inhabited K]
    (hashF : K → Nat) (off : Nat → Nat) (hoff : off_inj_mod off)
    (t : OATable K V) (hinv : OAInv hashF off t) (k : K) (s : Nat)
    (hs : s < t.size) (hk : (oa_slotAt t s).key = Option.some k) :
    oa_get hashF off (oa_delete hashF off t k) k = Option.none
    ∧ (oa_delete hashF off t k).size = t.size
    ∧ (oa_delete hashF off t k).members = t.members
    ∧ (∀ s', (oa_slotAt (oa_delete hashF off t k) s').key
        = (oa_slotAt t s').key)
    ∧ (∀ k', k' ≠ k → oa_get hashF off (oa_delete hashF off t k) k'
        = oa_get hashF off t k')
    ∧ (oa_slotAt (oa_delete hashF off t k) s).key = Option.some k
    ∧ (∀ v : V, (k, v) ∉ oa_iter_list (oa_delete hashF off t k))
    ∧ OAInv hashF off (oa_delete hashF off t k) := by
  obtain ⟨hlen, hp2, hhalf, hcount, huniq, hreach⟩ := hinv
  have hinv' : OAInv hashF off t := ⟨hlen, hp2, hhalf, hcount, huniq, hreach⟩
  have hD := oa_delete_found hashF off hoff t hinv' k s hs hk
  rw [hD]
  have hsl : s < t.slots.length := by omega
  have hkeys : ∀ s', (oa_slotAt (oa_set t s ⟨Option.some k, Option.none⟩) s').key
      = (oa_slotAt t s').key := by
    intro s'
    by_cases he : s' = s
    · subst he
      rw [oa_set_slotAt_eq t s' _ hsl, hk]
    · rw [oa_set_slotAt_ne t s s' _ he]
  have hsz : (oa_set t s ⟨Option.some k, Option.none⟩).size = t.size := rfl
  have hmem : (oa_set t s ⟨Option.some k, Option.none⟩).members = t.members := rfl
  have hkeyS : (oa_slotAt (oa_set t s ⟨Option.some k, Option.none⟩) s).key
      = Option.some k := by
    rw [oa_set_slotAt_eq t s _ hsl]
  have hvalS : (oa_slotAt (oa_set t s ⟨Option.some k, Option.none⟩) s).val
      = Option.none := by
    rw [oa_set_slotAt_eq t s _ hsl]
  have hInvR : OAInv hashF off (oa_set t s ⟨Option.some k, Option.none⟩) := by
    refine ⟨?_, hp2, hhalf, ?_, ?_, ?_⟩
    · rw [oa_set_slots, List.length_set]
      exact hlen
    · rw [oa_set_slots]
      have hc := countP_set (fun sl => sl.key.isSome) t.slots s
        ⟨Option.some k, Option.none⟩ hsl
      have hgs : t.slots.get ⟨s, hsl⟩ = oa_slotAt t s :=
        (oa_slotAt_get t s hsl).symm
      rw [hgs, hk] at hc
      simp only [Option.isSome_some, if_pos] at hc
      rw [hmem, hcount]
      omega
    · intro s1 h1 s2 h2 hsome heq
      rw [hkeys s1] at hsome heq
      rw [hkeys s2] at heq
      exact huniq s1 h1 s2 h2 hsome heq
    · intro s' hs' hsome
      rw [hkeys s'] at hsome
      have hka : oa_key_at (oa_set t s ⟨Option.some k, Option.none⟩) s'
          = oa_key_at t s' := by
        unfold oa_key_at
        rw [hkeys s']
      obtain ⟨j, hj, hpj, hoc⟩ := hreach s' hs' hsome
      refine ⟨j, hj, ?_, ?_⟩
      · rw [hka]
        exact hpj
      · intro i hi
        have hoi := hoc i hi
        unfold oa_occupied at hoi ⊢
        rw [hkeys, hka]
        exact hoi
  have hget_k : oa_get hashF off (oa_set t s ⟨Option.some k, Option.none⟩) k
      = Option.none := by
    have := oa_found_get hashF off hoff _ hInvR k s hs hkeyS
    rw [this, hvalS]
  have hget_other : ∀ k', k' ≠ k →
      oa_get hashF off (oa_set t s ⟨Option.some k, Option.none⟩) k'
        = oa_get hashF off t k' := by
    intro k' hne
    rcases oa_present_or_absent t k' with ⟨s2, hs2, hk2⟩ | habs
    · have hne2 : s2 ≠ s := by
        intro hc
        subst hc
        rw [hk2] at hk
        exact hne (by injection hk)
      have hk2r : (oa_slotAt (oa_set t s ⟨Option.some k, Option.none⟩) s2).key
          = Option.some k' := by
        rw [hkeys s2]
        exact hk2
      rw [oa_found_get hashF off hoff _ hInvR k' s2 hs2 hk2r,
          oa_found_get hashF off hoff t hinv' k' s2 hs2 hk2,
          oa_set_slotAt_ne t s s2 _ hne2]
    · have habs' : ∀ s', s' < (oa_set t s ⟨Option.some k, Option.none⟩).size →
          (oa_slotAt (oa_set t s ⟨Option.some k, Option.none⟩) s').key
            ≠ Option.some k' := by
        intro s' hs' hcon
        rw [hkeys s'] at hcon
        exact habs s' hs' hcon
      rw [oa_absent_get hashF off _ hInvR k' habs',
          oa_absent_get hashF off t hinv' k' habs]
  have hiter : ∀ v : V,
      (k, v) ∉ oa_iter_list (oa_set t s ⟨Option.some k, Option.none⟩) := by
    intro v hmemv
    unfold oa_iter_list at hmemv
    rw [List.mem_filterMap] at hmemv
    obtain ⟨sl, hslm, hf⟩ := hmemv
    have hkv : sl.key = Option.some k ∧ sl.val = Option.some v := by
      cases hks : sl.key with
      | none => rw [hks] at hf; exact Option.noConfusion hf
      | some k2 =>
        cases hvs : sl.val with
        | none => rw [hks, hvs] at hf; exact Option.noConfusion hf
        | some v2 =>
          rw [hks, hvs] at hf
          injection hf with hf2
          injection hf2 with hfa hfb
          exact ⟨by rw [hfa], by rw [hfb]⟩
    rw [oa_set_slots] at hslm
    obtain ⟨i, hi, hgi⟩ := List.mem_iff_getElem.mp hslm
    have hil : i < t.slots.length := by
      rw [List.length_set] at hi
      exact hi
    have hslotAti : oa_slotAt (oa_set t s ⟨Option.some k, Option.none⟩) i = sl := by
      unfold oa_slotAt
      rw [oa_set_slots, List.getD_eq_getElem?_getD,
          List.getElem?_eq_getElem hi, Option.getD_some]
      exact hgi
    have hkeyi : (oa_slotAt (oa_set t s ⟨Option.some k, Option.none⟩) i).key
        = Option.some k := by
      rw [hslotAti]
      exact hkv.1
    have hieq : i = s := by
      refine huniq i (by omega) s hs ?_ ?_
      · rw [← hkeys i, hkeyi]
        rfl
      · rw [← hkeys i, hkeyi, hk]
    subst hieq
    rw [hslotAti] at hvalS
    rw [hkv.2] at hvalS
    exact Option.noConfusion hvalS
  exact ⟨hget_k, hsz, hmem, hkeys, hget_other, hkeyS, hiter, hInvR⟩

/-- C9: After `hash_delete` on a key stored in the pointer-to-pointer map,
`hash_get` of that key returns NULL while `hash_members` is unchanged and
`hash_get` of every other stored key still returns its value; the deleted
key's slot retains its key (so it still counts toward the load factor and
the capacity is unchanged), and `hash_iter` skips the key because its
value is NULL. -/
theorem hash_delete_frame {V : Type} (t : OATable Nat V)
    (hinv : OAInv mix_bits_64 tri t) (k : Nat) (s : Nat)
    (hs : s < t.size) (hk : (oa_slotAt t s).key = Option.some k) :
    hash_get (hash_delete t k) k = Option.none
    ∧ hash_members (hash_delete t k) = hash_members t
    ∧ (∀ k', k' ≠ k → hash_get (hash_delete t k) k' = hash_get t k')
    ∧ (oa_slotAt (hash_delete t k) s).key = Option.some k
    ∧ (hash_delete t k).size = t.size
    ∧ (∀ v : V, (k, v) ∉ hash_iter_list (hash_delete t k))
    ∧ OAInv mix_bits_64 tri (hash_delete t k) := by
  obtain ⟨a, b, c, d, e, f, g, h⟩ :=
    oa_delete_spec mix_bits_64 tri off_inj_mod_tri t hinv k s hs hk
  exact ⟨a, c, e, f, b, g, h⟩

theorem hash_delete_frame_witness :
    (OAInv mix_bits_64 tri (hash_put (oa_new Nat Nat 1) 0 (Option.some 5)).1
      ∧ 0 < ((hash_put (oa_new Nat Nat 1) 0 (Option.some 5)).1).size
      ∧ (oa_slotAt (hash_put (oa_new Nat Nat 1) 0 (Option.some 5)).1 0).key
          = Option.some 0)
    ∧ hash_get
        (hash_delete (hash_put (oa_new Nat Nat 1) 0 (Option.some 5)).1 0) 0
      = Option.none :=
  ⟨⟨by decide, by decide, by decide⟩,
   (hash_delete_frame (hash_put (oa_new Nat Nat 1) 0 (Option.some 5)).1
      (by decide) 0 0 (by decide) (by decide)).1⟩

end NVC
